import Mathlib

/-!
Verification development for the Indonesian grammar-checker engine
(`src/lib/grammarChecker.ts`).  JavaScript strings are modelled as `List Char`;
the module-level KBBI word set is modelled as an explicit `List (List Char)`
parameter holding the set's elements in insertion order; JS numbers used by the
margin checker are modelled as rationals.  Case mapping is modelled on the
ASCII fragment (the inputs handled by the checker's rule tables are ASCII).
-/

namespace ResikBahasa

/-- Strings are lists of characters. -/
abbrev Str := List Char

/-- The whitespace class of JavaScript's regex `\s` (and of `String.prototype.trim`). -/
def isWS (c : Char) : Bool :=
  c.toNat = 9 || c.toNat = 10 || c.toNat = 11 || c.toNat = 12 || c.toNat = 13 ||
  c.toNat = 32 || c.toNat = 160 || c.toNat = 0x1680 ||
  (0x2000 ≤ c.toNat && c.toNat ≤ 0x200a) ||
  c.toNat = 0x2028 || c.toNat = 0x2029 || c.toNat = 0x202f || c.toNat = 0x205f ||
  c.toNat = 0x3000 || c.toNat = 0xfeff

/-- The punctuation class `[.,!?;:]` used by the tokenizer and the punctuation rules. -/
def isSplitPunct (c : Char) : Bool :=
  c.toNat = 46 || c.toNat = 44 || c.toNat = 33 || c.toNat = 63 || c.toNat = 59 || c.toNat = 58

/-- A character on which the word tokenizer `text.split(/(\s+|[.,!?;:])/)` can split. -/
def isSepChar (c : Char) : Bool := isWS c || isSplitPunct c

/-- ASCII uppercase letter (regex `[A-Z]`). -/
def isUpperAlpha (c : Char) : Bool := 65 ≤ c.toNat && c.toNat ≤ 90

/-- ASCII lowercase letter. -/
def isLowerAlphaChar (c : Char) : Bool := 97 ≤ c.toNat && c.toNat ≤ 122

/-- ASCII letter (regex `[a-zA-Z]`). -/
def isAsciiAlpha (c : Char) : Bool := isUpperAlpha c || isLowerAlphaChar c

/-- ASCII digit (regex `\d`). -/
def isDigitChar (c : Char) : Bool := 48 ≤ c.toNat && c.toNat ≤ 57

/-- `String.prototype.toLowerCase`, ASCII fragment. -/
def toLowerChar (c : Char) : Char :=
  if isUpperAlpha c then Char.ofNat (c.toNat + 32) else c

/-- `String.prototype.toUpperCase`, ASCII fragment. -/
def toUpperChar (c : Char) : Char :=
  if isLowerAlphaChar c then Char.ofNat (c.toNat - 32) else c

/-- Lowercase a whole string. -/
def toLowerStr (s : Str) : Str := s.map toLowerChar

/-- `String.prototype.trim`: strip leading and trailing whitespace. -/
def trimStr (s : Str) : Str := ((s.dropWhile isWS).reverse.dropWhile isWS).reverse

/-- Does `s` begin with `pat`? -/
def startsWithList : Str → Str → Bool
  | _, [] => true
  | [], _ :: _ => false
  | a :: as, b :: bs => a = b && startsWithList as bs

/-- Does `s` end with `suf` (JS `String.prototype.endsWith`)? -/
def endsWithStr (s suf : Str) : Bool := startsWithList s.reverse suf.reverse

/-- `str.indexOf(pat, start)`: smallest index `i ≥ start` where `pat` occurs in `s`,
`none` when there is no occurrence (JS returns `-1`). -/
def idxOfFrom (s pat : Str) (start : Nat) : Option Nat :=
  (List.range (s.length + 1)).find? (fun i => decide (start ≤ i) && startsWithList (s.drop i) pat)

/-- The substring of `s` at the half-open offset range `[a, b)`. -/
def substrOf (s : Str) (a b : Nat) : Str := (s.drop a).take (b - a)

/-- Does `s` contain `pat` as a contiguous substring? -/
def hasSubstr (s pat : Str) : Bool := (idxOfFrom s pat 0).isSome

/-- Test of the regex `/^[.,!?;:\s]+$/` (token is only separators). -/
def isAllSepToken (w : Str) : Bool := !w.isEmpty && w.all isSepChar

/-- Test of the regex `/^[\d\-.,!?;:()]+$/` (token is only digits, hyphens,
punctuation or parentheses). -/
def isDigitPunctOnly (w : Str) : Bool :=
  !w.isEmpty && w.all (fun c =>
    isDigitChar c || c = '-' || c = '.' || c = ',' || c = '!' || c = '?' ||
    c = ';' || c = ':' || c = '(' || c = ')')

/-- Test of the regex `/^[A-Z]/`. -/
def startsWithUpper (w : Str) : Bool :=
  match w with
  | [] => false
  | c :: _ => isUpperAlpha c

/-- Test of the regex `/\d/`. -/
def hasDigit (w : Str) : Bool := w.any isDigitChar

/-- JS object lookup restricted to the object's own keys
(`informalToFormal[cleanWord]` etc.). -/
def lookupStr : List (Str × Str) → Str → Option Str
  | [], _ => none
  | (k, v) :: rest, w => if w = k then some v else lookupStr rest w

/-- `Math.abs(a - b)` for natural-number lengths. -/
def natAbsDiff (a b : Nat) : Nat := if b ≤ a then a - b else b - a

/-- The error record produced by the checker (`GrammarError` in the source);
`end` is a Lean keyword, hence the guillemets. -/
inductive ErrorType where
  | grammar | spelling | misspelling | informal | punctuation | capitalization | format
deriving DecidableEq, Repr

/-- A detected error: kind, matched text, suggestion and half-open span. -/
structure GrammarError where
  type : ErrorType
  text : Str
  suggestion : Str
  start : Nat
  «end» : Nat
deriving DecidableEq, Repr

/-- Is the error a `format` (document-level) error? -/
def isFormat : ErrorType → Bool
  | .format => true
  | _ => false

/-- Is the error a `spelling` (unknown word) error? -/
def isSpelling : ErrorType → Bool
  | .spelling => true
  | _ => false

/-- The optional document margins handed to `checkMargins`, in centimeters. -/
structure DocumentMargins where
  top : ℚ
  bottom : ℚ
  left : ℚ
  right : ℚ

/-- The `informalToFormal` table of the source. -/
def informalToFormal : List (Str × Str) :=
  [("gak".data, "tidak".data),
   ("udah".data, "sudah".data),
   ("aja".data, "saja".data),
   ("sampe".data, "sampai".data),
   ("gimana".data, "bagaimana".data),
   ("kenapa".data, "mengapa".data),
   ("kayak".data, "seperti".data),
   ("emang".data, "memang".data),
   ("biar".data, "agar".data),
   ("ama".data, "dengan".data),
   ("abis".data, "setelah".data),
   ("nggak".data, "tidak".data),
   ("banget".data, "sekali".data),
   ("doang".data, "saja".data),
   ("ketemuan".data, "bertemu".data),
   ("ngomong".data, "berbicara".data),
   ("sayah".data, "saya".data)]

/-- The `validSuffixes` table of the source. -/
def validSuffixes : List Str :=
  ["ku".data, "mu".data, "nya".data, "lah".data, "kah".data, "tah".data,
   "an".data, "kan".data, "i".data, "in".data]

/-- The `commonMistakes` table of the source (typo phrase → correction). -/
def commonMistakes : List (Str × Str) :=
  [("di makan".data, "dimakan".data),
   ("di baca".data, "dibaca".data),
   ("di tulis".data, "ditulis".data),
   ("di lihat".data, "dilihat".data),
   ("ke mana".data, "kemana".data),
   ("ke sana".data, "kesana".data),
   ("ke mari".data, "kemari".data),
   ("apotik".data, "apotek".data),
   ("sistim".data, "sistem".data),
   ("analisa".data, "analisis".data),
   ("praktek".data, "praktik".data),
   ("resiko".data, "risiko".data),
   ("aktifitas".data, "aktivitas".data),
   ("effektif".data, "efektif".data),
   ("standart".data, "standar".data)]

/-- The `properNouns` table of the source. -/
def properNouns : List Str :=
  ["indonesia".data, "jakarta".data, "surabaya".data, "bandung".data, "medan".data,
   "semarang".data,
   "senin".data, "selasa".data, "rabu".data, "kamis".data, "jumat".data, "sabtu".data,
   "minggu".data,
   "januari".data, "februari".data, "maret".data, "april".data, "mei".data, "juni".data,
   "juli".data, "agustus".data, "september".data, "oktober".data, "november".data,
   "desember".data,
   "allah".data, "tuhan".data, "islam".data, "kristen".data, "hindu".data, "buddha".data]

/-- Worker of `jsSplit` with explicit fuel, making the recursion structural so
that proofs can evaluate it; `jsSplit` supplies fuel `s.length + 1`, which the
termination argument of the repeating regex engine shows is always enough
(every recursive call consumes at least one character). -/
def jsSplitF : Nat → Str → List Str
  | 0, _ => []
  | fuel + 1, s =>
    let chunk := s.takeWhile (fun c => !isSepChar c)
    match s.dropWhile (fun c => !isSepChar c) with
    | [] => [chunk]
    | c :: rest =>
      if isWS c then
        chunk :: ((c :: rest).takeWhile isWS) :: jsSplitF fuel ((c :: rest).dropWhile isWS)
      else
        chunk :: [c] :: jsSplitF fuel rest

/-- `text.split(/(\s+|[.,!?;:])/)`: alternates (possibly empty) chunks of
non-separator characters with separator tokens, where a separator is a maximal
whitespace run or a single punctuation character; the captured separators are
kept in the result, exactly as JS `split` with a capture group does. -/
def jsSplit (s : Str) : List Str := jsSplitF (s.length + 1) s

/-- A sentence terminator character (regex class `[.!?]`). -/
def isSentTerm (c : Char) : Bool := c.toNat = 46 || c.toNat = 33 || c.toNat = 63

/-- Worker of `splitOnTerminators` with structural fuel. -/
def splitOnTerminatorsF : Nat → Str → List Str
  | 0, _ => []
  | fuel + 1, s =>
    let chunk := s.takeWhile (fun c => !isSentTerm c)
    match s.dropWhile (fun c => !isSentTerm c) with
    | [] => [chunk]
    | _ :: rest => chunk :: splitOnTerminatorsF fuel (rest.dropWhile isSentTerm)

/-- `text.split(/[.!?]+/)`: splits on maximal runs of sentence terminators,
dropping the separators (no capture group). -/
def splitOnTerminators (s : Str) : List Str := splitOnTerminatorsF (s.length + 1) s

/-- Pair every token with its absolute character offset, accumulating lengths
exactly as the source's running `position` variable does. -/
def withPositions (pos : Nat) : List Str → List (Str × Nat)
  | [] => []
  | t :: ts => (t, pos) :: withPositions (pos + t.length) ts

/-- The token stream of `checkText` together with each token's offset. -/
def tokensWithPos (text : Str) : List (Str × Nat) := withPositions 0 (jsSplit text)

/-- One inner step of the `levenshteinDistance` matrix fill: given the previous
row's tail, the diagonal value `matrix[i-1][j-1]` and the value just computed
to the left `matrix[i][j-1]`, produce the rest of row `i` along `str1`. -/
def levRowAux (c2 : Char) : Str → List Nat → Nat → Nat → List Nat
  | [], _, _, _ => []
  | _ :: _, [], _, _ => []
  | x :: xs, pj :: prest, diag, left =>
    let cur := if x = c2 then diag else 1 + min diag (min left pj)
    cur :: levRowAux c2 xs prest pj cur

/-- Row `i` of the `levenshteinDistance` matrix from row `i - 1`
(`matrix[i][0] = i` is `prev[0] + 1`). -/
def levRow (str1 : Str) (c2 : Char) (prev : List Nat) : List Nat :=
  match prev with
  | [] => []
  | p0 :: prest => (p0 + 1) :: levRowAux c2 str1 prest p0 (p0 + 1)

/-- The source's `levenshteinDistance` dynamic program: start from row 0
`[0, 1, ..., str1.length]`, fill one row per character of `str2` (substitution,
insertion and deletion each cost 1), and return the bottom-right entry
`matrix[str2.length][str1.length]`. -/
def levenshteinDistance (str1 str2 : Str) : Nat :=
  (str2.foldl (fun row c2 => levRow str1 c2 row) (List.range (str1.length + 1))).getLastD 0

/-- `isValidWithSuffix`: the word itself is in the KBBI set, or stripping one
recognized suffix whose removal leaves the word longer than `suffix.length + 2`
yields a KBBI word; always false on an empty lexicon.  The source's `for` loop
with early `return true` is rendered as `List.any`. -/
def isValidWithSuffix (kbbiWords : List Str) (word : Str) : Bool :=
  if kbbiWords.length = 0 then false
  else
    let wordLower := toLowerStr word
    if kbbiWords.contains wordLower then true
    else
      validSuffixes.any (fun suffix =>
        endsWithStr wordLower suffix && decide (wordLower.length > suffix.length + 2) &&
          kbbiWords.contains (wordLower.take (wordLower.length - suffix.length)))

/-- A fuzzy-match candidate as pushed onto `matches` in `findClosestMatch`. -/
structure FuzzyMatch where
  word : Str
  distance : Nat
deriving DecidableEq, Repr

/-- Stable insertion of `a` into a list ascending by `key`: `a` goes after every
element whose key is `≤ key a`, as JS's stable `Array.prototype.sort` places it. -/
def insertByKey {α : Type} (key : α → Nat) (a : α) : List α → List α
  | [] => [a]
  | b :: bs => if key b ≤ key a then b :: insertByKey key a bs else a :: b :: bs

/-- Stable sort ascending by `key`; models `arr.sort((x, y) => key x - key y)`
(stable per the ECMAScript spec). -/
def sortByKey {α : Type} (key : α → Nat) : List α → List α
  | [] => []
  | a :: as => insertByKey key a (sortByKey key as)

/-- The `matches` list built by `findClosestMatch`'s `for` loop, in lexicon
(set-insertion) order: keep entries within length difference 2, edit distance
in `[1, maxDistance]` and character overlap `commonChars / max(len) ≥ 0.5`
(the JS float comparison is exact on these small integers, so it is rendered
as `2 * commonChars ≥ max len`). -/
def fuzzyCandidates (kbbiWords : List Str) (wordLower : Str) : List FuzzyMatch :=
  kbbiWords.filterMap (fun kbbiWord =>
    if natAbsDiff kbbiWord.length wordLower.length > 2 then none
    else
      let distance := levenshteinDistance wordLower kbbiWord
      let maxDistance := if wordLower.length ≤ 4 then 1 else 2
      if distance ≤ maxDistance && distance > 0 then
        let commonChars := (wordLower.filter (fun ch => kbbiWord.contains ch)).length
        if 2 * commonChars ≥ max wordLower.length kbbiWord.length then
          some ⟨kbbiWord, distance⟩
        else none
      else none)

/-- `findClosestMatch`: the words of the two closest fuzzy candidates, sorted
ascending by distance (JS's stable numeric sort, then `slice(0, 2)`). -/
def findClosestMatch (kbbiWords : List Str) (word : Str) : List Str :=
  if kbbiWords.length = 0 then []
  else
    ((sortByKey (fun m => m.distance) (fuzzyCandidates kbbiWords (toLowerStr word))).take 2).map
      (fun m => m.word)

/-- Suggestion string of an `informal` error. -/
def informalSuggestion (formal : Str) : Str :=
  ("Gunakan kata baku \"").data ++ formal ++ ("\" sebagai gantinya").data

/-- Suggestion string of a fuzzy `misspelling` error with one candidate. -/
def misspellingSuggestion1 (m : Str) : Str :=
  ("Kemungkinan salah ketik. Maksud Anda \"").data ++ m ++ ("\"?").data

/-- Suggestion string of a fuzzy `misspelling` error with two candidates. -/
def misspellingSuggestion2 (m1 m2 : Str) : Str :=
  ("Kemungkinan salah ketik. Maksud Anda \"").data ++ m1 ++ ("\" atau \"").data ++
    m2 ++ ("\"?").data

/-- Suggestion string of a `spelling` (word-not-found) error. -/
def spellingSuggestion (originalWord : Str) : Str :=
  ("Kata \"").data ++ originalWord ++
    ("\" tidak ditemukan dalam KBBI. Periksa ejaan kata ini.").data

/-- Suggestion string of a phrase-mistake `misspelling` error. -/
def phraseSuggestion (correct : Str) : Str :=
  ("Perbaiki menjadi \"").data ++ correct ++ ("\"").data

/-- `originalWord.charAt(0).toUpperCase() + originalWord.slice(1)`. -/
def capitalizeFirst : Str → Str
  | [] => []
  | c :: cs => toUpperChar c :: cs

/-- Suggestion string of a proper-noun `capitalization` error. -/
def properCapSuggestion (originalWord : Str) : Str :=
  ("Huruf kapital diperlukan: \"").data ++ capitalizeFirst originalWord ++ ("\"").data

/-- Suggestion string of a repeated-punctuation error. -/
def doublePunctSuggestion (c : Char) : Str :=
  ("Gunakan satu tanda baca \"").data ++ [c] ++ ("\" saja").data

/-- Suggestion string of a multiple-spaces error. -/
def multipleSpacesSuggestion : Str := ("Gunakan satu spasi saja").data

/-- Suggestion string of a space-before-punctuation error. -/
def spaceBeforePunctSuggestion (c : Char) : Str :=
  ("Hapus spasi sebelum \"").data ++ [c] ++ ("\"").data

/-- Suggestion string of a sentence-capitalization error. -/
def sentenceCapSuggestion (c : Char) : Str :=
  ("Gunakan huruf kapital di awal kalimat: \"").data ++ [toUpperChar c] ++ ("\"").data

/-- The phrase-mistake scan performed for one token: for each `commonMistakes`
entry, `lowerText.indexOf(mistake, position)`, and an error is pushed when the
occurrence starts before the current token ends. -/
def phraseErrors (lowerText : Str) (position wordLen : Nat) : List GrammarError :=
  commonMistakes.filterMap (fun mc =>
    match idxOfFrom lowerText (toLowerStr mc.1) position with
    | none => none
    | some mistakeIndex =>
      if mistakeIndex < position + wordLen then
        some ⟨ErrorType.misspelling, mc.1, phraseSuggestion mc.2,
              mistakeIndex, mistakeIndex + mc.1.length⟩
      else none)

/-- The fuzzy/dictionary branch of the per-token check (step 2/3 of the
source's `forEach` body): runs only when the informal table missed. -/
def dictionaryErrors (kbbiWords : List Str) (cleanWord originalWord : Str)
    (position wordLen : Nat) : List GrammarError :=
  if kbbiWords.length > 0 && !isValidWithSuffix kbbiWords cleanWord &&
      !properNouns.contains cleanWord then
    match findClosestMatch kbbiWords cleanWord with
    | [] =>
      if !startsWithUpper originalWord && !hasDigit originalWord then
        [⟨ErrorType.spelling, originalWord, spellingSuggestion originalWord,
          position, position + wordLen⟩]
      else []
    | [m1] =>
      [⟨ErrorType.misspelling, originalWord, misspellingSuggestion1 m1,
        position, position + wordLen⟩]
    | m1 :: m2 :: _ =>
      [⟨ErrorType.misspelling, originalWord, misspellingSuggestion2 m1 m2,
        position, position + wordLen⟩]
  else []

/-- The whole body of the source's `words.forEach` for one token at offset
`position`: skip pure separators, then informal table / dictionary lookup,
then the phrase-mistake scan, then the proper-noun capitalization check. -/
def processWord (kbbiWords : List Str) (lowerText : Str) (word : Str)
    (position : Nat) : List GrammarError :=
  if (toLowerStr (trimStr word)).isEmpty || isAllSepToken word then []
  else
    (if !isDigitPunctOnly (trimStr word) && (toLowerStr (trimStr word)).length > 1 then
      match lookupStr informalToFormal (toLowerStr (trimStr word)) with
      | some formal =>
        [⟨ErrorType.informal, trimStr word, informalSuggestion formal,
          position, position + word.length⟩]
      | none =>
        dictionaryErrors kbbiWords (toLowerStr (trimStr word)) (trimStr word)
          position word.length
    else [])
    ++ phraseErrors lowerText position word.length
    ++ (if properNouns.contains (toLowerStr (trimStr word)) &&
          trimStr word = toLowerStr (trimStr word) then
        [⟨ErrorType.capitalization, trimStr word, properCapSuggestion (trimStr word),
          position, position + word.length⟩]
      else [])

/-- Scan for the regex `/([.!?,:;])\1+/g`: maximal runs of at least two equal
punctuation characters; `pos` is the absolute offset of the scan head.  The
fuel (one more than the length of the remaining input) makes the recursion
structural; every recursive call consumes at least one character. -/
def scanDoublePunctF : Nat → Nat → Str → List GrammarError
  | 0, _, _ => []
  | _ + 1, _, [] => []
  | fuel + 1, pos, c :: cs =>
    if isSplitPunct c && !(cs.takeWhile (fun d => d = c)).isEmpty then
      let run := cs.takeWhile (fun d => d = c)
      ⟨ErrorType.punctuation, c :: run, doublePunctSuggestion c,
        pos, pos + 1 + run.length⟩ ::
        scanDoublePunctF fuel (pos + 1 + run.length) (cs.dropWhile (fun d => d = c))
    else scanDoublePunctF fuel (pos + 1) cs

/-- Entry point of the repeated-punctuation scan. -/
def scanDoublePunct (pos : Nat) (s : Str) : List GrammarError :=
  scanDoublePunctF (s.length + 1) pos s

/-- Scan for the regex `/\s{2,}/g`: maximal runs of at least two whitespace
characters (structural fuel as in `scanDoublePunctF`). -/
def scanMultipleSpacesF : Nat → Nat → Str → List GrammarError
  | 0, _, _ => []
  | _ + 1, _, [] => []
  | fuel + 1, pos, c :: cs =>
    if isWS c && !(cs.takeWhile isWS).isEmpty then
      let run := cs.takeWhile isWS
      ⟨ErrorType.punctuation, c :: run, multipleSpacesSuggestion,
        pos, pos + 1 + run.length⟩ ::
        scanMultipleSpacesF fuel (pos + 1 + run.length) (cs.dropWhile isWS)
    else scanMultipleSpacesF fuel (pos + 1) cs

/-- Entry point of the multiple-spaces scan. -/
def scanMultipleSpaces (pos : Nat) (s : Str) : List GrammarError :=
  scanMultipleSpacesF (s.length + 1) pos s

/-- Scan for the regex `/\s+([.!?,:;])/g`: a maximal whitespace run immediately
followed by a punctuation character; the match covers the run and that one
punctuation character (structural fuel as in `scanDoublePunctF`). -/
def scanSpaceBeforePunctF : Nat → Nat → Str → List GrammarError
  | 0, _, _ => []
  | _ + 1, _, [] => []
  | fuel + 1, pos, c :: cs =>
    if isWS c then
      let run := (c :: cs).takeWhile isWS
      match (c :: cs).dropWhile isWS with
      | [] => []
      | p :: rs =>
        if isSplitPunct p then
          ⟨ErrorType.punctuation, run ++ [p], spaceBeforePunctSuggestion p,
            pos, pos + run.length + 1⟩ ::
            scanSpaceBeforePunctF fuel (pos + run.length + 1) rs
        else scanSpaceBeforePunctF fuel (pos + run.length) (p :: rs)
    else scanSpaceBeforePunctF fuel (pos + 1) cs

/-- Entry point of the space-before-punctuation scan. -/
def scanSpaceBeforePunct (pos : Nat) (s : Str) : List GrammarError :=
  scanSpaceBeforePunctF (s.length + 1) pos s

/-- `checkPunctuation`: the three regex scans, in source order. -/
def checkPunctuation (text : Str) : List GrammarError :=
  scanDoublePunct 0 text ++ scanMultipleSpaces 0 text ++ scanSpaceBeforePunct 0 text

/-- One step of the source's `sentences.forEach`: flag a sentence whose first
character is a lowercase ASCII letter, locating it with
`text.indexOf(trimmed, position)`, then advance `position` by
`sentence.length + 1`. -/
def sentenceCapStep (text : Str) (acc : Nat × List GrammarError) (sentence : Str) :
    Nat × List GrammarError :=
  (acc.1 + sentence.length + 1,
    match trimStr sentence with
    | [] => acc.2
    | firstChar :: _ =>
      if firstChar ≠ toUpperChar firstChar && isAsciiAlpha firstChar then
        match idxOfFrom text (trimStr sentence) acc.1 with
        | some sentenceStart =>
          acc.2 ++ [⟨ErrorType.capitalization, [firstChar],
                    sentenceCapSuggestion firstChar, sentenceStart, sentenceStart + 1⟩]
        | none => acc.2
      else acc.2)

/-- `checkSentenceCapitalization`: split on sentence terminators and flag
lowercase sentence starts. -/
def checkSentenceCapitalization (text : Str) : List GrammarError :=
  ((splitOnTerminators text).foldl (sentenceCapStep text) (0, [])).2

/-- The `(start, end)` span of an error. -/
def spanPair (e : GrammarError) : Nat × Nat := (e.start, e.«end»)

/-- The source's duplicate filter
`errors.filter((e, i, self) => i === self.findIndex(x => x.start === e.start && x.end === e.end))`:
keep the first error at each span.  Rendered with an accumulator of spans
already seen. -/
def dedupBySpanAux (seen : List (Nat × Nat)) : List GrammarError → List GrammarError
  | [] => []
  | e :: es =>
    if seen.contains (spanPair e) then dedupBySpanAux seen es
    else e :: dedupBySpanAux (spanPair e :: seen) es

/-- Remove duplicate spans, keeping the first occurrence. -/
def dedupBySpan (l : List GrammarError) : List GrammarError := dedupBySpanAux [] l

/-- The undeduplicated `errors` list assembled by `checkText` (token pass in
order, then punctuation, then sentence capitalization), before the final
duplicate filter and sort. -/
def rawErrors (kbbiWords : List Str) (text : Str) : List GrammarError :=
  ((tokensWithPos text).map (fun wp => processWord kbbiWords (toLowerStr text) wp.1 wp.2)).flatten
    ++ checkPunctuation text ++ checkSentenceCapitalization text

/-- `checkText`: run the per-token checks over the token stream, append the
punctuation and sentence-capitalization scans, deduplicate by span and sort
ascending by `start`. -/
def checkText (kbbiWords : List Str) (text : Str) : List GrammarError :=
  sortByKey (fun e => e.start) (dedupBySpan (rawErrors kbbiWords text))

/-- `Math.abs` on the rational model of JS numbers. -/
def ratAbs (q : ℚ) : ℚ := if q < 0 then -q else q

/-- JS number-to-string interpolation `${margins.top}`, modelled by the
rational's `toString`; no claim depends on this substring of the suggestion. -/
def jsNumberToString (q : ℚ) : Str := (toString q).data

/-- Suggestion for a wrong margin: literal text around the interpolated current
value, e.g. `Margin atas harus 3.0 cm (saat ini _ cm). Atur margin atas ke 3.0 cm.` -/
def marginSuggestion (label1 : Str) (required : Str) (current : ℚ) (label2 : Str) : Str :=
  label1 ++ (" harus ").data ++ required ++ (" cm (saat ini ").data ++
    jsNumberToString current ++ (" cm). Atur ").data ++ label2 ++ (" ke ").data ++
    required ++ (" cm.").data

/-- `checkMargins`: compare each dimension with the standard
`{top: 3.0, bottom: 2.5, left: 2.5, right: 2.5}` and push a `format` error at
`(0, 0)` when the absolute deviation exceeds `0.1` cm. -/
def checkMargins : Option DocumentMargins → List GrammarError
  | none => []
  | some margins =>
    (if ratAbs (margins.top - 3) > 1/10 then
      [⟨ErrorType.format, ("Margin Atas").data,
        marginSuggestion ("Margin atas").data ("3.0").data margins.top
          ("margin atas").data, 0, 0⟩]
    else []) ++
    (if ratAbs (margins.bottom - 5/2) > 1/10 then
      [⟨ErrorType.format, ("Margin Bawah").data,
        marginSuggestion ("Margin bawah").data ("2.5").data margins.bottom
          ("margin bawah").data, 0, 0⟩]
    else []) ++
    (if ratAbs (margins.left - 5/2) > 1/10 then
      [⟨ErrorType.format, ("Margin Kiri").data,
        marginSuggestion ("Margin kiri").data ("2.5").data margins.left
          ("margin kiri").data, 0, 0⟩]
    else []) ++
    (if ratAbs (margins.right - 5/2) > 1/10 then
      [⟨ErrorType.format, ("Margin Kanan").data,
        marginSuggestion ("Margin kanan").data ("2.5").data margins.right
          ("margin kanan").data, 0, 0⟩]
    else [])

/-- The top-level entry point `checkGrammar(text, margins?)`. -/
def checkGrammar (kbbiWords : List Str) (text : Str)
    (margins : Option DocumentMargins) : List GrammarError :=
  checkText kbbiWords text ++ checkMargins margins

/-- Is the error list sorted non-decreasing by `start`? -/
def isSortedByStart : List GrammarError → Bool
  | [] => true
  | [_] => true
  | a :: b :: rest => decide (a.start ≤ b.start) && isSortedByStart (b :: rest)

/-- Do no two errors of the list share the same `(start, end)` pair? -/
def noDupSpans : List GrammarError → Bool
  | [] => true
  | e :: es => !(es.any (fun x => decide (spanPair x = spanPair e))) && noDupSpans es

/-- Is the word list sorted non-decreasing by edit distance to `w`? -/
def isSortedByDistTo (w : Str) : List Str → Bool
  | [] => true
  | [_] => true
  | a :: b :: rest =>
    decide (levenshteinDistance w a ≤ levenshteinDistance w b) && isSortedByDistTo w (b :: rest)

/-- The predicate claim C4 describes, following its words: the word (lowercased)
is in the lexicon directly, or removing one recognized suffix once yields a
ROOT whose length is greater than `suffix.length + 2` and which is in the
lexicon; false on an empty lexicon. -/
def claimedIsKnownWithSuffix (kbbiWords : List Str) (word : Str) : Bool :=
  if kbbiWords.length = 0 then false
  else
    let wordLower := toLowerStr word
    kbbiWords.contains wordLower ||
      validSuffixes.any (fun suffix =>
        endsWithStr wordLower suffix &&
        decide (wordLower.length - suffix.length > suffix.length + 2) &&
        kbbiWords.contains (wordLower.take (wordLower.length - suffix.length)))

/-- The amended C4 predicate: as the claim, but the length condition is the
source's — the WORD (not the root) must be longer than `suffix.length + 2`,
i.e. the root is longer than 2 characters. -/
def amendedIsKnownWithSuffix (kbbiWords : List Str) (word : Str) : Bool :=
  if kbbiWords.length = 0 then false
  else
    let wordLower := toLowerStr word
    kbbiWords.contains wordLower ||
      validSuffixes.any (fun suffix =>
        endsWithStr wordLower suffix &&
        decide (wordLower.length > suffix.length + 2) &&
        kbbiWords.contains (wordLower.take (wordLower.length - suffix.length)))

/-- The per-token check with the dictionary/fuzzy branch removed; it mentions
no lexicon at all.  Used to state that an empty lexicon disables exactly the
dictionary lookups (claim C8). -/
def processWordNoDict (lowerText : Str) (word : Str) (position : Nat) :
    List GrammarError :=
  if (toLowerStr (trimStr word)).isEmpty || isAllSepToken word then []
  else
    (if !isDigitPunctOnly (trimStr word) && (toLowerStr (trimStr word)).length > 1 then
      match lookupStr informalToFormal (toLowerStr (trimStr word)) with
      | some formal =>
        [⟨ErrorType.informal, trimStr word, informalSuggestion formal,
          position, position + word.length⟩]
      | none => []
    else [])
    ++ phraseErrors lowerText position word.length
    ++ (if properNouns.contains (toLowerStr (trimStr word)) &&
          trimStr word = toLowerStr (trimStr word) then
        [⟨ErrorType.capitalization, trimStr word, properCapSuggestion (trimStr word),
          position, position + word.length⟩]
      else [])

/-- The undeduplicated error list of `checkTextNoDict`. -/
def rawErrorsNoDict (text : Str) : List GrammarError :=
  ((tokensWithPos text).map (fun wp => processWordNoDict (toLowerStr text) wp.1 wp.2)).flatten
    ++ checkPunctuation text ++ checkSentenceCapitalization text

/-- `checkText` with the dictionary/fuzzy branch removed (lexicon-free). -/
def checkTextNoDict (text : Str) : List GrammarError :=
  sortByKey (fun e => e.start) (dedupBySpan (rawErrorsNoDict text))

/-- `checkGrammar` with the dictionary/fuzzy branch removed (lexicon-free). -/
def checkGrammarNoDict (text : Str) (margins : Option DocumentMargins) :
    List GrammarError :=
  checkTextNoDict text ++ checkMargins margins

/-! ### Generic lemmas about the stable sort and the span-deduplication -/

theorem insertByKey_perm {α : Type} (key : α → Nat) (a : α) :
    ∀ l : List α, List.Perm (insertByKey key a l) (a :: l)
  | [] => List.Perm.refl _
  | b :: bs => by
    unfold insertByKey
    split
    · exact ((insertByKey_perm key a bs).cons b).trans (List.Perm.swap a b bs)
    · exact List.Perm.refl _

theorem sortByKey_perm {α : Type} (key : α → Nat) :
    ∀ l : List α, List.Perm (sortByKey key l) l
  | [] => List.Perm.refl _
  | a :: as =>
    (insertByKey_perm key a (sortByKey key as)).trans ((sortByKey_perm key as).cons a)

theorem mem_sortByKey {α : Type} (key : α → Nat) (l : List α) (x : α) :
    x ∈ sortByKey key l ↔ x ∈ l :=
  (sortByKey_perm key l).mem_iff

theorem insertByKey_pairwise {α : Type} (key : α → Nat) (a : α) :
    ∀ l : List α, l.Pairwise (fun x y => key x ≤ key y) →
      (insertByKey key a l).Pairwise (fun x y => key x ≤ key y)
  | [], _ => by simp [insertByKey]
  | b :: bs, h => by
    rw [List.pairwise_cons] at h
    unfold insertByKey
    split
    · rename_i hba
      rw [List.pairwise_cons]
      refine ⟨fun y hy => ?_, insertByKey_pairwise key a bs h.2⟩
      rcases List.mem_cons.mp ((insertByKey_perm key a bs).mem_iff.mp hy) with hya | hyb
      · exact hya ▸ hba
      · exact h.1 y hyb
    · rename_i hba
      push_neg at hba
      rw [List.pairwise_cons]
      refine ⟨fun y hy => ?_, List.pairwise_cons.mpr h⟩
      rcases List.mem_cons.mp hy with hyb | hyb
      · exact hyb ▸ le_of_lt hba
      · exact le_trans (le_of_lt hba) (h.1 y hyb)

theorem sortByKey_pairwise {α : Type} (key : α → Nat) :
    ∀ l : List α, (sortByKey key l).Pairwise (fun x y => key x ≤ key y)
  | [] => List.Pairwise.nil
  | a :: as => insertByKey_pairwise key a _ (sortByKey_pairwise key as)

theorem isSortedByStart_of_pairwise :
    ∀ l : List GrammarError, l.Pairwise (fun a b => a.start ≤ b.start) →
      isSortedByStart l = true
  | [], _ => rfl
  | [_], _ => rfl
  | a :: b :: rest, h => by
    rw [List.pairwise_cons] at h
    have h1 : a.start ≤ b.start := h.1 b (List.mem_cons_self b rest)
    have h2 := isSortedByStart_of_pairwise (b :: rest) h.2
    simp [isSortedByStart, h1, h2]

theorem noDupSpans_iff_nodup_map :
    ∀ l : List GrammarError, noDupSpans l = true ↔ (l.map spanPair).Nodup
  | [] => by simp [noDupSpans]
  | e :: es => by
    rw [noDupSpans]
    simp only [List.map_cons, List.nodup_cons, Bool.and_eq_true, Bool.not_eq_true',
      ← noDupSpans_iff_nodup_map es]
    constructor
    · rintro ⟨h1, h2⟩
      refine ⟨fun hmem => ?_, h2⟩
      rcases List.mem_map.mp hmem with ⟨x, hx, hxe⟩
      have : es.any (fun x => decide (spanPair x = spanPair e)) = true :=
        List.any_eq_true.mpr ⟨x, hx, by simp [hxe]⟩
      rw [h1] at this
      exact Bool.false_ne_true this
    · rintro ⟨h1, h2⟩
      refine ⟨?_, h2⟩
      by_contra hne
      rcases List.any_eq_true.mp (Bool.not_eq_false _ |>.mp hne) with ⟨x, hx, hxe⟩
      exact h1 (List.mem_map.mpr ⟨x, hx, by simpa using hxe⟩)

theorem mem_of_mem_dedupAux (seen : List (Nat × Nat)) :
    ∀ l : List GrammarError, ∀ e ∈ dedupBySpanAux seen l, e ∈ l
  | [], e, he => by simp [dedupBySpanAux] at he
  | x :: xs, e, he => by
    rw [dedupBySpanAux] at he
    split at he
    · exact List.mem_cons_of_mem x (mem_of_mem_dedupAux seen xs e he)
    · rcases List.mem_cons.mp he with h | h
      · exact h ▸ List.mem_cons_self x xs
      · exact List.mem_cons_of_mem x (mem_of_mem_dedupAux _ xs e h)

theorem dedupAux_spans (seen : List (Nat × Nat)) :
    ∀ l : List GrammarError,
      ((dedupBySpanAux seen l).map spanPair).Nodup ∧
        ∀ e ∈ dedupBySpanAux seen l, spanPair e ∉ seen
  | [] => by simp [dedupBySpanAux]
  | x :: xs => by
    rw [dedupBySpanAux]
    split
    · rename_i hc
      exact dedupAux_spans seen xs
    · rename_i hc
      have ih := dedupAux_spans (spanPair x :: seen) xs
      have hxs : spanPair x ∉ seen := by
        intro hmem
        exact hc (List.elem_eq_true_of_mem hmem)
      constructor
      · rw [List.map_cons, List.nodup_cons]
        refine ⟨fun hmem => ?_, ih.1⟩
        rcases List.mem_map.mp hmem with ⟨y, hy, hyx⟩
        exact (ih.2 y hy) (hyx ▸ List.mem_cons_self _ _)
      · intro e he
        rcases List.mem_cons.mp he with h | h
        · exact h ▸ hxs
        · exact fun hmem => (ih.2 e h) (List.mem_cons_of_mem _ hmem)

theorem mem_dedupAux_of_unique (seen : List (Nat × Nat)) :
    ∀ l : List GrammarError, ∀ e ∈ l,
      (∀ x ∈ l, spanPair x = spanPair e → x = e) → spanPair e ∉ seen →
        e ∈ dedupBySpanAux seen l
  | [], e, he, _, _ => by simp at he
  | x :: xs, e, he, huniq, hseen => by
    rw [dedupBySpanAux]
    split
    · rename_i hc
      rcases List.mem_cons.mp he with h | h
      · exfalso
        apply hseen
        rw [h]
        exact List.mem_of_elem_eq_true hc
      · exact mem_dedupAux_of_unique seen xs e h
          (fun y hy hysp => huniq y (List.mem_cons_of_mem x hy) hysp) hseen
    · rename_i hc
      rcases List.mem_cons.mp he with h | h
      · exact h ▸ List.mem_cons_self _ _
      · by_cases hxe : x = e
        · exact hxe ▸ List.mem_cons_self _ _
        · apply List.mem_cons_of_mem
          apply mem_dedupAux_of_unique (spanPair x :: seen) xs e h
            (fun y hy hysp => huniq y (List.mem_cons_of_mem x hy) hysp)
          intro hmem
          rcases List.mem_cons.mp hmem with hsp | hsp
          · exact hxe (huniq x (List.mem_cons_self x xs) hsp.symm)
          · exact hseen hsp

/-! ### Error kinds produced by each detector -/

/-- Inversion for the phrase-mistake scan: every emitted error carries a
`commonMistakes` key as its text, spans exactly an occurrence of that key found
at or after `position` (but starting before `position + wordLen`), and is a
`misspelling`. -/
theorem mem_phraseErrors_inv (lowerText : Str) (position wordLen : Nat)
    (e : GrammarError) (he : e ∈ phraseErrors lowerText position wordLen) :
    ∃ mc ∈ commonMistakes,
      e = ⟨ErrorType.misspelling, mc.1, phraseSuggestion mc.2, e.start,
            e.start + mc.1.length⟩ ∧
      idxOfFrom lowerText (toLowerStr mc.1) position = some e.start ∧
      e.start < position + wordLen := by
  rcases List.mem_filterMap.mp he with ⟨mc, hmc, heq⟩
  refine ⟨mc, hmc, ?_⟩
  split at heq
  · exact absurd heq (by simp)
  · rename_i mistakeIndex hidx
    split at heq
    · rename_i hlt
      rcases Option.some.injEq _ _ |>.mp heq with rfl
      exact ⟨rfl, hidx, hlt⟩
    · exact absurd heq (by simp)

theorem type_of_mem_phraseErrors (lowerText : Str) (position wordLen : Nat) :
    ∀ e ∈ phraseErrors lowerText position wordLen, e.type = ErrorType.misspelling := by
  intro e he
  rcases mem_phraseErrors_inv lowerText position wordLen e he with ⟨mc, _, heq, _⟩
  rw [heq]

theorem type_of_mem_dictionaryErrors (kbbiWords : List Str) (cleanWord originalWord : Str)
    (position wordLen : Nat) :
    ∀ e ∈ dictionaryErrors kbbiWords cleanWord originalWord position wordLen,
      e.type = ErrorType.spelling ∨ e.type = ErrorType.misspelling := by
  intro e he
  unfold dictionaryErrors at he
  split at he
  · split at he
    · split at he
      · simp at he
        subst he
        exact Or.inl rfl
      · simp at he
    · simp at he
      subst he
      exact Or.inr rfl
    · simp at he
      subst he
      exact Or.inr rfl
  · simp at he

/-- Inversion for the dictionary branch: any emitted error spans exactly the
token and shows the trimmed original word. -/
theorem mem_dictionaryErrors_inv (kbbiWords : List Str) (cleanWord originalWord : Str)
    (position wordLen : Nat) (e : GrammarError)
    (he : e ∈ dictionaryErrors kbbiWords cleanWord originalWord position wordLen) :
    e.text = originalWord ∧ e.start = position ∧ e.«end» = position + wordLen := by
  unfold dictionaryErrors at he
  split at he
  · split at he
    · split at he
      · simp at he
        subst he
        exact ⟨rfl, rfl, rfl⟩
      · simp at he
    · simp at he
      subst he
      exact ⟨rfl, rfl, rfl⟩
    · simp at he
      subst he
      exact ⟨rfl, rfl, rfl⟩
  · simp at he

theorem type_of_mem_processWord (kbbiWords : List Str) (lowerText word : Str) (position : Nat) :
    ∀ e ∈ processWord kbbiWords lowerText word position,
      e.type = ErrorType.informal ∨ e.type = ErrorType.misspelling ∨
        e.type = ErrorType.spelling ∨ e.type = ErrorType.capitalization := by
  intro e he
  unfold processWord at he
  split at he
  · simp at he
  · rcases List.mem_append.mp he with h | h
    · rcases List.mem_append.mp h with h | h
      · split at h
        · split at h
          · simp at h
            subst h
            exact Or.inl rfl
          · rcases type_of_mem_dictionaryErrors _ _ _ _ _ e h with h2 | h2
            · exact Or.inr (Or.inr (Or.inl h2))
            · exact Or.inr (Or.inl h2)
        · simp at h
      · exact Or.inr (Or.inl (type_of_mem_phraseErrors _ _ _ e h))
    · split at h
      · simp at h
        subst h
        exact Or.inr (Or.inr (Or.inr rfl))
      · simp at h

theorem type_of_mem_scanDoublePunctF :
    ∀ (fuel pos : Nat) (s : Str), ∀ e ∈ scanDoublePunctF fuel pos s,
      e.type = ErrorType.punctuation
  | 0, _, _, e, he => by simp [scanDoublePunctF] at he
  | fuel + 1, pos, [], e, he => by simp [scanDoublePunctF] at he
  | fuel + 1, pos, c :: cs, e, he => by
    rw [scanDoublePunctF] at he
    split at he
    · rcases List.mem_cons.mp he with h | h
      · subst h
        rfl
      · exact type_of_mem_scanDoublePunctF fuel _ _ e h
    · exact type_of_mem_scanDoublePunctF fuel _ _ e he

theorem type_of_mem_scanMultipleSpacesF :
    ∀ (fuel pos : Nat) (s : Str), ∀ e ∈ scanMultipleSpacesF fuel pos s,
      e.type = ErrorType.punctuation
  | 0, _, _, e, he => by simp [scanMultipleSpacesF] at he
  | fuel + 1, pos, [], e, he => by simp [scanMultipleSpacesF] at he
  | fuel + 1, pos, c :: cs, e, he => by
    rw [scanMultipleSpacesF] at he
    split at he
    · rcases List.mem_cons.mp he with h | h
      · subst h
        rfl
      · exact type_of_mem_scanMultipleSpacesF fuel _ _ e h
    · exact type_of_mem_scanMultipleSpacesF fuel _ _ e he

set_option maxHeartbeats 2000000 in
theorem type_of_mem_scanSpaceBeforePunctF :
    ∀ (fuel pos : Nat) (s : Str), ∀ e ∈ scanSpaceBeforePunctF fuel pos s,
      e.type = ErrorType.punctuation
  | 0, _, _, e, he => by rw [scanSpaceBeforePunctF] at he; exact absurd he (by simp)
  | fuel + 1, pos, [], e, he => by rw [scanSpaceBeforePunctF] at he; exact absurd he (by simp)
  | fuel + 1, pos, c :: cs, e, he => by
    rw [scanSpaceBeforePunctF] at he
    split at he
    · split at he
      · simp at he
      · split at he
        · rcases List.mem_cons.mp he with h | h
          · subst h
            rfl
          · exact type_of_mem_scanSpaceBeforePunctF fuel _ _ e h
        · exact type_of_mem_scanSpaceBeforePunctF fuel _ _ e he
    · exact type_of_mem_scanSpaceBeforePunctF fuel _ _ e he

theorem type_of_mem_checkPunctuation (text : Str) :
    ∀ e ∈ checkPunctuation text, e.type = ErrorType.punctuation := by
  intro e he
  unfold checkPunctuation at he
  rcases List.mem_append.mp he with h | h
  · rcases List.mem_append.mp h with h | h
    · exact type_of_mem_scanDoublePunctF _ _ _ e h
    · exact type_of_mem_scanMultipleSpacesF _ _ _ e h
  · exact type_of_mem_scanSpaceBeforePunctF _ _ _ e h

/-- Every error pushed by a `sentenceCapStep` fold either was already in the
accumulator or is a `capitalization` error of width 1 located by a successful
`indexOf` search for some nonempty trimmed sentence. -/
theorem mem_sentenceCapFold (text : Str) :
    ∀ (sentences : List Str) (acc : Nat × List GrammarError),
      ∀ e ∈ (sentences.foldl (sentenceCapStep text) acc).2,
        e ∈ acc.2 ∨
          (e.type = ErrorType.capitalization ∧ e.«end» = e.start + 1 ∧
            ∃ (trimmed : Str) (p : Nat), trimmed ≠ [] ∧
              idxOfFrom text trimmed p = some e.start ∧
              e.text = trimmed.take 1)
  | [], acc, e, he => Or.inl he
  | sentence :: rest, acc, e, he => by
    rcases mem_sentenceCapFold text rest _ e he with h | h
    · unfold sentenceCapStep at h
      simp only at h
      split at h
      · exact Or.inl h
      · rename_i firstChar tailc heqtrim
        split at h
        · split at h
          · rename_i sentenceStart hidx
            rcases List.mem_append.mp h with h2 | h2
            · exact Or.inl h2
            · simp at h2
              subst h2
              refine Or.inr ⟨rfl, rfl, firstChar :: tailc, acc.1, by simp, ?_, by simp⟩
              rw [← heqtrim]
              exact hidx
          · exact Or.inl h
        · exact Or.inl h
    · exact Or.inr h

theorem type_of_mem_checkSentenceCapitalization (text : Str) :
    ∀ e ∈ checkSentenceCapitalization text,
      e.type = ErrorType.capitalization ∧ e.«end» = e.start + 1 := by
  intro e he
  unfold checkSentenceCapitalization at he
  rcases mem_sentenceCapFold text _ _ e he with h | h
  · simp at h
  · exact ⟨h.1, h.2.1⟩

theorem mem_checkMargins :
    ∀ (margins : Option DocumentMargins), ∀ e ∈ checkMargins margins,
      e.type = ErrorType.format ∧ e.start = 0 ∧ e.«end» = 0 ∧
        (e.text = ("Margin Atas").data ∨ e.text = ("Margin Bawah").data ∨
          e.text = ("Margin Kiri").data ∨ e.text = ("Margin Kanan").data)
  | none, e, he => by simp [checkMargins] at he
  | some m, e, he => by
    rw [checkMargins] at he
    rcases List.mem_append.mp he with h | h
    · rcases List.mem_append.mp h with h | h
      · rcases List.mem_append.mp h with h | h
        · split at h
          · simp at h
            subst h
            exact ⟨rfl, rfl, rfl, Or.inl rfl⟩
          · simp at h
        · split at h
          · simp at h
            subst h
            exact ⟨rfl, rfl, rfl, Or.inr (Or.inl rfl)⟩
          · simp at h
      · split at h
        · simp at h
          subst h
          exact ⟨rfl, rfl, rfl, Or.inr (Or.inr (Or.inl rfl))⟩
        · simp at h
    · split at h
      · simp at h
        subst h
        exact ⟨rfl, rfl, rfl, Or.inr (Or.inr (Or.inr rfl))⟩
      · simp at h

theorem type_of_mem_rawErrors (kbbiWords : List Str) (text : Str) :
    ∀ e ∈ rawErrors kbbiWords text, e.type ≠ ErrorType.format := by
  intro e he
  unfold rawErrors at he
  rcases List.mem_append.mp he with h | h
  · rcases List.mem_append.mp h with h | h
    · rcases List.mem_flatten.mp h with ⟨l, hl, hel⟩
      rcases List.mem_map.mp hl with ⟨wp, _, rfl⟩
      rcases type_of_mem_processWord _ _ _ _ e hel with h2 | h2 | h2 | h2 <;> simp [h2]
    · have := type_of_mem_checkPunctuation text e h
      simp [this]
  · have := (type_of_mem_checkSentenceCapitalization text e h).1
    simp [this]

theorem mem_checkText_iff (kbbiWords : List Str) (text : Str) (e : GrammarError) :
    e ∈ checkText kbbiWords text ↔ e ∈ dedupBySpan (rawErrors kbbiWords text) := by
  unfold checkText
  exact mem_sortByKey _ _ e

theorem mem_rawErrors_of_mem_checkText (kbbiWords : List Str) (text : Str) (e : GrammarError)
    (he : e ∈ checkText kbbiWords text) : e ∈ rawErrors kbbiWords text :=
  mem_of_mem_dedupAux [] _ e ((mem_checkText_iff kbbiWords text e).mp he)

theorem type_of_mem_checkText (kbbiWords : List Str) (text : Str) :
    ∀ e ∈ checkText kbbiWords text, e.type ≠ ErrorType.format := fun e he =>
  type_of_mem_rawErrors kbbiWords text e (mem_rawErrors_of_mem_checkText kbbiWords text e he)

theorem noDupSpans_checkText (kbbiWords : List Str) (text : Str) :
    noDupSpans (checkText kbbiWords text) = true := by
  rw [noDupSpans_iff_nodup_map]
  have hperm : List.Perm ((checkText kbbiWords text).map spanPair)
      ((dedupBySpan (rawErrors kbbiWords text)).map spanPair) :=
    (sortByKey_perm _ _).map spanPair
  exact hperm.nodup_iff.mpr (dedupAux_spans [] _).1

/-! ### Claims C1 and C2: ordering and span dedup of the output -/

/-- C1 counterexample: on `"a  b"` with a deviating top margin the output is
capitalization `(0,1)`, punctuation `(1,3)` and then the appended `format`
error at `(0,0)` — not sorted by `start`. -/
theorem C1_counterexample :
    isSortedByStart (checkGrammar [] (("a  b").data)
      (some ⟨2, 5/2, 5/2, 5/2⟩)) = false := by
  have hm : checkMargins (some ⟨2, 5/2, 5/2, 5/2⟩) =
      [⟨ErrorType.format, ("Margin Atas").data,
        marginSuggestion ("Margin atas").data ("3.0").data 2 ("margin atas").data, 0, 0⟩] := by
    simp only [checkMargins]
    norm_num [ratAbs]
  rw [checkGrammar, hm]
  decide

/-- C1 (amended): the text errors of `checkText` are sorted non-decreasing by
`start`; `checkGrammar` appends the margin `format` errors (span `(0,0)`)
after them, so its whole output is sorted whenever the margin spec is absent. -/
theorem C1_amended_thm (kbbiWords : List Str) (text : Str)
    (margins : Option DocumentMargins) :
    isSortedByStart (checkText kbbiWords text) = true ∧
      (margins = none → isSortedByStart (checkGrammar kbbiWords text margins) = true) := by
  have hsorted : isSortedByStart (checkText kbbiWords text) = true := by
    unfold checkText
    exact isSortedByStart_of_pairwise _ (sortByKey_pairwise _ _)
  refine ⟨hsorted, fun h => ?_⟩
  subst h
  show isSortedByStart (checkText kbbiWords text ++ checkMargins none) = true
  rw [show checkMargins none = [] from rfl, List.append_nil]
  exact hsorted

/-- Witness for the amended C1 at a concrete input. -/
theorem C1_amended_witness :
    isSortedByStart (checkText [] (("a  b").data)) = true ∧
      isSortedByStart (checkGrammar [] (("a  b").data) none) = true :=
  ⟨(C1_amended_thm [] (("a  b").data) none).1,
    (C1_amended_thm [] (("a  b").data) none).2 rfl⟩

/-- C2 counterexample: with all four margins deviating, the output contains
four `format` errors that all carry the span `(0, 0)`. -/
theorem C2_counterexample :
    noDupSpans (checkGrammar [] [] (some ⟨0, 0, 0, 0⟩)) = false := by
  have hm : checkMargins (some ⟨0, 0, 0, 0⟩) =
      [⟨ErrorType.format, ("Margin Atas").data,
        marginSuggestion ("Margin atas").data ("3.0").data 0 ("margin atas").data, 0, 0⟩,
       ⟨ErrorType.format, ("Margin Bawah").data,
        marginSuggestion ("Margin bawah").data ("2.5").data 0 ("margin bawah").data, 0, 0⟩,
       ⟨ErrorType.format, ("Margin Kiri").data,
        marginSuggestion ("Margin kiri").data ("2.5").data 0 ("margin kiri").data, 0, 0⟩,
       ⟨ErrorType.format, ("Margin Kanan").data,
        marginSuggestion ("Margin kanan").data ("2.5").data 0 ("margin kanan").data, 0, 0⟩] := by
    simp only [checkMargins]
    norm_num [ratAbs]
  rw [checkGrammar, hm]
  decide

/-- C2 (amended): no two NON-format errors returned by `checkGrammar` share a
`(start, end)` pair (the text-error dedup keeps the first occurrence at each
span); `format` errors all share the document-level span `(0, 0)` and are
exempt. -/
theorem C2_amended_thm (kbbiWords : List Str) (text : Str)
    (margins : Option DocumentMargins) :
    noDupSpans ((checkGrammar kbbiWords text margins).filter
      (fun e => !isFormat e.type)) = true := by
  unfold checkGrammar
  rw [List.filter_append]
  have h1 : (checkText kbbiWords text).filter (fun e => !isFormat e.type) =
      checkText kbbiWords text := by
    rw [List.filter_eq_self]
    intro e he
    have := type_of_mem_checkText kbbiWords text e he
    cases htype : e.type <;> simp_all [isFormat]
  have h2 : (checkMargins margins).filter (fun e => !isFormat e.type) = [] := by
    rw [List.filter_eq_nil_iff]
    intro e he
    have := (mem_checkMargins margins e he).1
    simp [this, isFormat]
  rw [h1, h2, List.append_nil]
  exact noDupSpans_checkText kbbiWords text

/-! ### Claim C4: the suffix-aware lexicon membership test -/

/-- C4 counterexample: with lexicon `{aku}` and word `akui`, the code's
`isValidWithSuffix` accepts (the WORD is longer than `suffix.length + 2` for
suffix `i`), but the claim's predicate — which requires the ROOT `aku` to be
longer than `suffix.length + 2` — rejects.  So the claimed equivalence fails. -/
theorem C4_counterexample :
    isValidWithSuffix [("aku").data] (("akui").data) = true ∧
      claimedIsKnownWithSuffix [("aku").data] (("akui").data) = false := by
  constructor <;> rfl

/-- C4 (amended): `isValidWithSuffix` returns true for a word `w` iff `w`
(lowercased) is in the lexicon directly, or one recognized suffix in
`{ku, mu, nya, lah, kah, tah, an, kan, i, in}` can be stripped once such that
the WORD's length exceeds `suffix.length + 2` (equivalently the root is longer
than 2 characters) and the root is in the lexicon; with an empty lexicon it
returns false. -/
theorem C4_amended_thm (kbbiWords : List Str) (word : Str) :
    isValidWithSuffix kbbiWords word = amendedIsKnownWithSuffix kbbiWords word := by
  unfold isValidWithSuffix amendedIsKnownWithSuffix
  split
  · rfl
  · by_cases h : kbbiWords.contains (toLowerStr word) <;> simp [h]

/-! ### Claim C5: the fuzzy matcher -/

/-- Every fuzzy candidate records the edit distance of its word to `wordLower`,
its word is a lexicon entry, and it passed the three gates of the source. -/
theorem mem_fuzzyCandidates (kbbiWords : List Str) (wordLower : Str)
    (m : FuzzyMatch) (hm : m ∈ fuzzyCandidates kbbiWords wordLower) :
    m.word ∈ kbbiWords ∧
      m.distance = levenshteinDistance wordLower m.word ∧
      natAbsDiff m.word.length wordLower.length ≤ 2 ∧
      1 ≤ m.distance ∧
      m.distance ≤ (if wordLower.length ≤ 4 then 1 else 2) ∧
      2 * ((wordLower.filter (fun ch => m.word.contains ch)).length) ≥
        max wordLower.length m.word.length := by
  rcases List.mem_filterMap.mp hm with ⟨kbbiWord, hmem, heq⟩
  simp only [Option.ite_none_left_eq_some, Option.ite_none_right_eq_some,
    Option.some.injEq, Bool.and_eq_true, decide_eq_true_iff] at heq
  obtain ⟨hlen, ⟨hd1, hd2⟩, hratio, rfl⟩ := heq
  refine ⟨hmem, rfl, ?_, ?_, ?_, ?_⟩
  · dsimp only
    omega
  · dsimp only
    omega
  · exact hd1
  · exact hratio

/-- Sorted-by-distance boolean check follows from pairwise ordering. -/
theorem isSortedByDistTo_of_pairwise (w : Str) :
    ∀ l : List Str,
      l.Pairwise (fun a b => levenshteinDistance w a ≤ levenshteinDistance w b) →
        isSortedByDistTo w l = true
  | [], _ => rfl
  | [_], _ => rfl
  | a :: b :: rest, h => by
    rw [List.pairwise_cons] at h
    have h1 : levenshteinDistance w a ≤ levenshteinDistance w b :=
      h.1 b (List.mem_cons_self b rest)
    have h2 := isSortedByDistTo_of_pairwise w (b :: rest) h.2
    simp [isSortedByDistTo, h1, h2]

/-- A returned suggestion comes from a fuzzy candidate. -/
theorem mem_findClosestMatch (kbbiWords : List Str) (word : Str) (s : Str)
    (hs : s ∈ findClosestMatch kbbiWords word) :
    ∃ m ∈ fuzzyCandidates kbbiWords (toLowerStr word), m.word = s := by
  unfold findClosestMatch at hs
  split at hs
  · simp at hs
  · rcases List.mem_map.mp hs with ⟨m, hm, rfl⟩
    have hm2 : m ∈ sortByKey (fun m => m.distance)
        (fuzzyCandidates kbbiWords (toLowerStr word)) :=
      (List.take_sublist 2 _).mem hm
    exact ⟨m, (mem_sortByKey _ _ m).mp hm2, rfl⟩

/-- C5 counterexample: with lexicon `{aaaaa}` and word `aaabc`, the code
suggests `aaaaa`, yet `aaaaa` contains only 1 of the 3 distinct characters of
`aaabc` — less than half.  The claimed distinct-character overlap gate is not
what the code checks (it counts the word's characters with multiplicity
against `max(len)`). -/
theorem C5_counterexample :
    (("aaaaa").data ∈ findClosestMatch [("aaaaa").data] (("aaabc").data)) ∧
      2 * ((("aaabc").data.dedup.filter (fun c => ("aaaaa").data.contains c)).length) <
        ("aaabc").data.dedup.length := by
  constructor
  · decide
  · decide

/-- C5 (amended): `findClosestMatch` returns at most 2 suggestions, sorted
non-decreasing by edit distance to the lowercased word; on an empty lexicon it
returns none; each suggestion is a lexicon entry whose length differs from the
word's by at most 2, whose distance to the lowercased word is at least 1 and at
most 1 when the word length is ≤ 4 (else at most 2), and whose character
overlap satisfies the source's gate: the number of the lowercased word's
characters, counted with multiplicity, occurring in the suggestion is at least
half of `max(len(word), len(suggestion))`. -/
theorem C5_amended_thm (kbbiWords : List Str) (word : Str) :
    (findClosestMatch kbbiWords word).length ≤ 2 ∧
    isSortedByDistTo (toLowerStr word) (findClosestMatch kbbiWords word) = true ∧
    (kbbiWords = [] → findClosestMatch kbbiWords word = []) ∧
    ∀ s ∈ findClosestMatch kbbiWords word,
      s ∈ kbbiWords ∧
      natAbsDiff s.length word.length ≤ 2 ∧
      1 ≤ levenshteinDistance (toLowerStr word) s ∧
      levenshteinDistance (toLowerStr word) s ≤ (if word.length ≤ 4 then 1 else 2) ∧
      2 * (((toLowerStr word).filter (fun ch => s.contains ch)).length) ≥
        max word.length s.length := by
  have hlenw : (toLowerStr word).length = word.length := List.length_map _ _
  refine ⟨?_, ?_, ?_, ?_⟩
  · unfold findClosestMatch
    split
    · simp
    · rw [List.length_map, List.length_take]
      omega
  · unfold findClosestMatch
    split
    · rfl
    · apply isSortedByDistTo_of_pairwise
      rw [List.pairwise_map]
      have hsorted := sortByKey_pairwise (fun m : FuzzyMatch => m.distance)
        (fuzzyCandidates kbbiWords (toLowerStr word))
      have htake := hsorted.sublist (List.take_sublist 2 _)
      refine htake.imp_of_mem ?_
      intro a b ha hb hab
      have ha2 := (mem_fuzzyCandidates _ _ a ((mem_sortByKey _ _ a).mp
        ((List.take_sublist 2 _).mem ha))).2.1
      have hb2 := (mem_fuzzyCandidates _ _ b ((mem_sortByKey _ _ b).mp
        ((List.take_sublist 2 _).mem hb))).2.1
      rw [← ha2, ← hb2]
      exact hab
  · intro h
    subst h
    rfl
  · intro s hs
    rcases mem_findClosestMatch kbbiWords word s hs with ⟨m, hm, rfl⟩
    rcases mem_fuzzyCandidates _ _ m hm with ⟨h1, h2, h3, h4, h5, h6⟩
    rw [h2] at h4 h5
    rw [hlenw] at h3 h5 h6
    refine ⟨h1, ?_, h4, h5, h6⟩
    unfold natAbsDiff at h3 ⊢
    split at h3 <;> split <;> omega

/-- Witness for the amended C5: the per-suggestion facts discharged at the
concrete lexicon `{aaaaa}`, word `aaabc` and suggestion `aaaaa`. -/
theorem C5_amended_witness :
    (("aaaaa").data ∈ findClosestMatch [("aaaaa").data] (("aaabc").data)) ∧
      (("aaaaa").data ∈ [("aaaaa").data] ∧
       natAbsDiff ("aaaaa").data.length ("aaabc").data.length ≤ 2 ∧
       1 ≤ levenshteinDistance (toLowerStr (("aaabc").data)) (("aaaaa").data) ∧
       levenshteinDistance (toLowerStr (("aaabc").data)) (("aaaaa").data) ≤
         (if ("aaabc").data.length ≤ 4 then 1 else 2) ∧
       2 * (((toLowerStr (("aaabc").data)).filter
         (fun ch => ("aaaaa").data.contains ch)).length) ≥
         max ("aaabc").data.length ("aaaaa").data.length) :=
  ⟨by decide,
    (C5_amended_thm [("aaaaa").data] (("aaabc").data)).2.2.2 (("aaaaa").data) (by decide)⟩

/-! ### Character, trim and indexOf facts -/

theorem toLowerChar_of_sep (c : Char) (h : isSepChar c = true) : toLowerChar c = c := by
  unfold toLowerChar
  rw [if_neg]
  intro hu
  unfold isSepChar isWS isSplitPunct at h
  unfold isUpperAlpha at hu
  simp only [Bool.or_eq_true, Bool.and_eq_true, decide_eq_true_iff] at h hu
  omega

theorem dropWhile_eq_self_of_none {p : Char → Bool} :
    ∀ l : Str, (∀ c ∈ l, p c = false) → l.dropWhile p = l
  | [], _ => rfl
  | c :: cs, h => by
    rw [List.dropWhile_cons, if_neg]
    simp [h c (List.mem_cons_self c cs)]

theorem dropWhile_eq_nil_of_all {p : Char → Bool} :
    ∀ l : Str, (∀ c ∈ l, p c = true) → l.dropWhile p = []
  | [], _ => rfl
  | c :: cs, h => by
    rw [List.dropWhile_cons, if_pos (h c (List.mem_cons_self c cs))]
    exact dropWhile_eq_nil_of_all cs (fun d hd => h d (List.mem_cons_of_mem c hd))

theorem trimStr_eq_self (w : Str) (h : ∀ c ∈ w, isWS c = false) : trimStr w = w := by
  unfold trimStr
  rw [dropWhile_eq_self_of_none w h,
    dropWhile_eq_self_of_none w.reverse (fun c hc => h c (List.mem_reverse.mp hc)),
    List.reverse_reverse]

theorem trimStr_eq_nil (w : Str) (h : ∀ c ∈ w, isWS c = true) : trimStr w = [] := by
  unfold trimStr
  rw [dropWhile_eq_nil_of_all w h]
  rfl

theorem mem_trimStr (w : Str) (c : Char) (hc : c ∈ trimStr w) : c ∈ w := by
  unfold trimStr at hc
  rw [List.mem_reverse] at hc
  have h1 := List.dropWhile_subset (l := (w.dropWhile isWS).reverse) isWS hc
  rw [List.mem_reverse] at h1
  exact List.dropWhile_subset isWS h1

theorem head_dropWhile_false {p : Char → Bool} :
    ∀ (l : Str) (c : Char) (rest : Str), l.dropWhile p = c :: rest → p c = false
  | [], c, rest, h => by simp at h
  | a :: t, c, rest, h => by
    rw [List.dropWhile_cons] at h
    split at h
    · exact head_dropWhile_false t c rest h
    · rename_i hpa
      cases h
      exact Bool.not_eq_true _ |>.mp hpa

theorem startsWithList_spec :
    ∀ (s pat : Str), startsWithList s pat = true →
      s.take pat.length = pat ∧ pat.length ≤ s.length
  | _, [], _ => ⟨List.take_zero _, Nat.zero_le _⟩
  | [], b :: bs, h => by simp [startsWithList] at h
  | a :: as, b :: bs, h => by
    rw [startsWithList, Bool.and_eq_true, decide_eq_true_iff] at h
    have ih := startsWithList_spec as bs h.2
    refine ⟨?_, by simpa using Nat.succ_le_succ ih.2⟩
    simp only [List.length_cons, List.take_succ_cons, ih.1, h.1]

theorem idxOfFrom_some (s pat : Str) (start i : Nat)
    (h : idxOfFrom s pat start = some i) :
    start ≤ i ∧ (s.drop i).take pat.length = pat ∧ i + pat.length ≤ s.length := by
  unfold idxOfFrom at h
  have hp := List.find?_some h
  have hmem := List.mem_of_find?_eq_some h
  rw [List.mem_range] at hmem
  rw [Bool.and_eq_true, decide_eq_true_iff] at hp
  have hsw := startsWithList_spec (s.drop i) pat hp.2
  refine ⟨hp.1, hsw.1, ?_⟩
  have hlen : (s.drop i).length = s.length - i := List.length_drop i s
  omega

/-! ### Tokenizer facts -/

theorem jsSplitF_flatten :
    ∀ (fuel : Nat) (s : Str), s.length < fuel → (jsSplitF fuel s).flatten = s
  | 0, s, h => absurd h (by omega)
  | fuel + 1, s, h => by
    rw [jsSplitF]
    split
    · rename_i hdrop
      have := List.takeWhile_append_dropWhile (p := fun c => !isSepChar c) (l := s)
      rw [hdrop, List.append_nil] at this
      simpa using this
    · rename_i c rest hdrop
      have htd := List.takeWhile_append_dropWhile (p := fun c => !isSepChar c) (l := s)
      rw [hdrop] at htd
      have hlen : (c :: rest).length ≤ s.length := by
        have := (List.dropWhile_sublist (l := s) (fun c => !isSepChar c)).length_le
        rw [hdrop] at this
        exact this
      split
      · rename_i hws
        have htd2 := List.takeWhile_append_dropWhile (p := isWS) (l := c :: rest)
        have hdw : ((c :: rest).dropWhile isWS).length ≤ rest.length := by
          rw [List.dropWhile_cons, if_pos hws]
          exact (List.dropWhile_sublist _).length_le
        have hrec := jsSplitF_flatten fuel ((c :: rest).dropWhile isWS)
          (by simp at hlen; omega)
        simp only [List.flatten_cons]
        rw [hrec, htd2, htd]
      · have hrec := jsSplitF_flatten fuel rest (by simp at hlen; omega)
        simp only [List.flatten_cons]
        rw [List.singleton_append, hrec, htd]

theorem jsSplit_flatten (s : Str) : (jsSplit s).flatten = s :=
  jsSplitF_flatten (s.length + 1) s (Nat.lt_succ_self _)

theorem jsSplitF_shape :
    ∀ (fuel : Nat) (s : Str), ∀ t ∈ jsSplitF fuel s,
      (∀ c ∈ t, isSepChar c = false) ∨
        (t ≠ [] ∧ ∀ c ∈ t, isWS c = true) ∨
        (∃ c, isSplitPunct c = true ∧ t = [c])
  | 0, s, t, ht => absurd ht (by simp [jsSplitF])
  | fuel + 1, s, t, ht => by
    rw [jsSplitF] at ht
    have hchunk : ∀ c ∈ s.takeWhile (fun c => !isSepChar c), isSepChar c = false := by
      intro c hc
      have := List.mem_takeWhile_imp hc
      simpa using this
    split at ht
    · rcases List.mem_singleton.mp ht with rfl
      exact Or.inl hchunk
    · rename_i c rest hdrop
      split at ht
      · rename_i hws
        rcases List.mem_cons.mp ht with rfl | ht2
        · exact Or.inl hchunk
        · rcases List.mem_cons.mp ht2 with rfl | ht3
          · refine Or.inr (Or.inl ⟨?_, ?_⟩)
            · rw [List.takeWhile_cons, if_pos hws]
              simp
            · intro d hd
              exact List.mem_takeWhile_imp hd
          · exact jsSplitF_shape fuel _ t ht3
      · rename_i hws
        rcases List.mem_cons.mp ht with rfl | ht2
        · exact Or.inl hchunk
        · rcases List.mem_cons.mp ht2 with rfl | ht3
          · refine Or.inr (Or.inr ⟨c, ?_, rfl⟩)
            have hsep : isSepChar c = true := by
              have := head_dropWhile_false s c rest hdrop
              simpa using this
            unfold isSepChar at hsep
            rw [Bool.or_eq_true] at hsep
            rcases hsep with h | h
            · exact absurd h (by simpa using hws)
            · exact h
          · exact jsSplitF_shape fuel rest t ht3

theorem jsSplit_shape (s : Str) :
    ∀ t ∈ jsSplit s,
      (∀ c ∈ t, isSepChar c = false) ∨
        (t ≠ [] ∧ ∀ c ∈ t, isWS c = true) ∨
        (∃ c, isSplitPunct c = true ∧ t = [c]) :=
  jsSplitF_shape (s.length + 1) s

theorem fst_mem_withPositions :
    ∀ (pos : Nat) (ts : List Str) (tp : Str × Nat),
      tp ∈ withPositions pos ts → tp.1 ∈ ts
  | pos, t :: ts, tp, h => by
    rw [withPositions] at h
    rcases List.mem_cons.mp h with rfl | h2
    · exact List.mem_cons_self _ _
    · exact List.mem_cons_of_mem _ (fst_mem_withPositions _ ts tp h2)

theorem mem_withPositions_pos :
    ∀ (pos : Nat) (ts : List Str) (tp : Str × Nat),
      tp ∈ withPositions pos ts → pos ≤ tp.2
  | pos, t :: ts, tp, h => by
    rw [withPositions] at h
    rcases List.mem_cons.mp h with rfl | h2
    · exact Nat.le_refl _
    · exact Nat.le_trans (Nat.le_add_right _ _) (mem_withPositions_pos _ ts tp h2)

theorem withPositions_spec (s : Str) :
    ∀ (pos : Nat) (ts : List Str), pos ≤ s.length → ts.flatten = s.drop pos →
      ∀ tp ∈ withPositions pos ts,
        (s.drop tp.2).take tp.1.length = tp.1 ∧ tp.2 + tp.1.length ≤ s.length
  | pos, [], _, _, tp, h => by simp [withPositions] at h
  | pos, t :: ts, hpos, hflat, tp, h => by
    rw [List.flatten_cons] at hflat
    have hlen : t.length ≤ s.length - pos := by
      have h1 : (t ++ ts.flatten).length = (s.drop pos).length := by rw [hflat]
      rw [List.length_append, List.length_drop] at h1
      omega
    rw [withPositions] at h
    rcases List.mem_cons.mp h with rfl | h2
    · constructor
      · rw [← hflat]
        exact List.take_left t ts.flatten
      · dsimp only
        omega
    · have hflat2 : ts.flatten = s.drop (pos + t.length) := by
        have h1 : (t ++ ts.flatten).drop t.length = (s.drop pos).drop t.length := by
          rw [hflat]
        rw [List.drop_left, List.drop_drop] at h1
        rw [h1]
      exact withPositions_spec s (pos + t.length) ts (by omega) hflat2 tp h2

theorem withPositions_unique :
    ∀ (pos : Nat) (ts : List Str) (t t' : Str) (p : Nat),
      (t, p) ∈ withPositions pos ts → (t', p) ∈ withPositions pos ts →
        1 ≤ t.length → 1 ≤ t'.length → t = t'
  | pos, t0 :: ts, t, t', p, h1, h2, hl1, hl2 => by
    rw [withPositions] at h1 h2
    rcases List.mem_cons.mp h1 with he1 | h1b
    · rcases List.mem_cons.mp h2 with he2 | h2b
      · have ha : t = t0 := ((Prod.mk.injEq _ _ _ _).mp he1).1
        have hb : t' = t0 := ((Prod.mk.injEq _ _ _ _).mp he2).1
        rw [ha, hb]
      · exfalso
        have ha : t = t0 := ((Prod.mk.injEq _ _ _ _).mp he1).1
        have hp : p = pos := ((Prod.mk.injEq _ _ _ _).mp he1).2
        have hge := mem_withPositions_pos _ ts _ h2b
        dsimp only at hge
        rw [ha] at hl1
        omega
    · rcases List.mem_cons.mp h2 with he2 | h2b
      · exfalso
        have hb : t' = t0 := ((Prod.mk.injEq _ _ _ _).mp he2).1
        have hp : p = pos := ((Prod.mk.injEq _ _ _ _).mp he2).2
        have hge := mem_withPositions_pos _ ts _ h1b
        dsimp only at hge
        rw [hb] at hl2
        omega
      · exact withPositions_unique _ ts t t' p h1b h2b hl1 hl2

/-! ### Spans and matched text of the punctuation scanners -/

theorem shape_scanDoublePunctF (text : Str) :
    ∀ (fuel pos : Nat) (s : Str), s = text.drop pos → pos ≤ text.length →
      ∀ e ∈ scanDoublePunctF fuel pos s,
        pos ≤ e.start ∧ e.start < e.«end» ∧ e.«end» ≤ text.length ∧
        e.text = substrOf text e.start e.«end» ∧
        ∃ c rest2, e.text = c :: rest2 ∧ isSepChar c = true
  | 0, pos, s, _, _, e, he => absurd he (by rw [scanDoublePunctF]; simp)
  | fuel + 1, pos, [], _, _, e, he => absurd he (by rw [scanDoublePunctF]; simp)
  | fuel + 1, pos, c :: cs, hs, hpos, e, he => by
    have hlens : cs.length + 1 = text.length - pos := by
      have := congrArg List.length hs
      simpa using this
    have hrun : (cs.takeWhile (fun d => d = c)).length ≤ cs.length :=
      (List.takeWhile_sublist _).length_le
    have hcs : cs.drop (cs.takeWhile (fun d => d = c)).length =
        cs.dropWhile (fun d => d = c) := by
      have h := List.takeWhile_append_dropWhile (p := fun d => d = c) (l := cs)
      nth_rewrite 2 [← h]
      exact List.drop_left _ _
    have h2 : cs = text.drop (pos + 1) := by
      have h3 := congrArg (List.drop 1) hs
      rw [List.drop_drop] at h3
      simpa using h3
    rw [scanDoublePunctF] at he
    split at he
    · rename_i hcond
      rw [Bool.and_eq_true] at hcond
      rcases List.mem_cons.mp he with rfl | he2
      · refine ⟨Nat.le_refl _, by dsimp only; omega, by dsimp only; omega,
          ?_, ⟨c, _, rfl, by unfold isSepChar; rw [hcond.1]; simp⟩⟩
        dsimp only
        unfold substrOf
        rw [← hs]
        have h1 : pos + 1 + (cs.takeWhile (fun d => d = c)).length - pos =
            (cs.takeWhile (fun d => d = c)).length + 1 := by omega
        rw [h1, List.take_succ_cons]
        congr 1
        exact List.prefix_iff_eq_take.mp (List.takeWhile_prefix _)
      · have hs2 : cs.dropWhile (fun d => d = c) =
            text.drop (pos + 1 + (cs.takeWhile (fun d => d = c)).length) := by
          rw [← hcs, h2, List.drop_drop]
        obtain ⟨ha, hb, hc2, hd, he3⟩ :=
          shape_scanDoublePunctF text fuel _ _ hs2 (by omega) e he2
        exact ⟨by omega, hb, hc2, hd, he3⟩
    · obtain ⟨ha, hb, hc2, hd, he3⟩ :=
        shape_scanDoublePunctF text fuel _ _ h2 (by omega) e he
      exact ⟨by omega, hb, hc2, hd, he3⟩
theorem shape_scanMultipleSpacesF (text : Str) :
    ∀ (fuel pos : Nat) (s : Str), s = text.drop pos → pos ≤ text.length →
      ∀ e ∈ scanMultipleSpacesF fuel pos s,
        pos ≤ e.start ∧ e.start < e.«end» ∧ e.«end» ≤ text.length ∧
        e.text = substrOf text e.start e.«end» ∧
        ∃ c rest2, e.text = c :: rest2 ∧ isSepChar c = true
  | 0, pos, s, _, _, e, he => absurd he (by rw [scanMultipleSpacesF]; simp)
  | fuel + 1, pos, [], _, _, e, he => absurd he (by rw [scanMultipleSpacesF]; simp)
  | fuel + 1, pos, c :: cs, hs, hpos, e, he => by
    have hlens : cs.length + 1 = text.length - pos := by
      have := congrArg List.length hs
      simpa using this
    have hrun : (cs.takeWhile isWS).length ≤ cs.length :=
      (List.takeWhile_sublist _).length_le
    have hcs : cs.drop (cs.takeWhile isWS).length = cs.dropWhile isWS := by
      have h := List.takeWhile_append_dropWhile (p := isWS) (l := cs)
      nth_rewrite 2 [← h]
      exact List.drop_left _ _
    have h2 : cs = text.drop (pos + 1) := by
      have h3 := congrArg (List.drop 1) hs
      rw [List.drop_drop] at h3
      simpa using h3
    rw [scanMultipleSpacesF] at he
    split at he
    · rename_i hcond
      rw [Bool.and_eq_true] at hcond
      rcases List.mem_cons.mp he with rfl | he2
      · refine ⟨Nat.le_refl _, by dsimp only; omega, by dsimp only; omega,
          ?_, ⟨c, _, rfl, by unfold isSepChar; rw [hcond.1]; simp⟩⟩
        dsimp only
        unfold substrOf
        rw [← hs]
        have h1 : pos + 1 + (cs.takeWhile isWS).length - pos =
            (cs.takeWhile isWS).length + 1 := by omega
        rw [h1, List.take_succ_cons]
        congr 1
        exact List.prefix_iff_eq_take.mp (List.takeWhile_prefix _)
      · have hs2 : cs.dropWhile isWS =
            text.drop (pos + 1 + (cs.takeWhile isWS).length) := by
          rw [← hcs, h2, List.drop_drop]
        obtain ⟨ha, hb, hc2, hd, he3⟩ :=
          shape_scanMultipleSpacesF text fuel _ _ hs2 (by omega) e he2
        exact ⟨by omega, hb, hc2, hd, he3⟩
    · obtain ⟨ha, hb, hc2, hd, he3⟩ :=
        shape_scanMultipleSpacesF text fuel _ _ h2 (by omega) e he
      exact ⟨by omega, hb, hc2, hd, he3⟩

theorem shape_scanSpaceBeforePunctF (text : Str) :
    ∀ (fuel pos : Nat) (s : Str), s = text.drop pos → pos ≤ text.length →
      ∀ e ∈ scanSpaceBeforePunctF fuel pos s,
        pos ≤ e.start ∧ e.start < e.«end» ∧ e.«end» ≤ text.length ∧
        e.text = substrOf text e.start e.«end» ∧
        ∃ c rest2, e.text = c :: rest2 ∧ isSepChar c = true
  | 0, pos, s, _, _, e, he => absurd he (by rw [scanSpaceBeforePunctF]; simp)
  | fuel + 1, pos, [], _, _, e, he => absurd he (by rw [scanSpaceBeforePunctF]; simp)
  | fuel + 1, pos, c :: cs, hs, hpos, e, he => by
    have hlens : cs.length + 1 = text.length - pos := by
      have := congrArg List.length hs
      simpa using this
    have h2 : cs = text.drop (pos + 1) := by
      have h3 := congrArg (List.drop 1) hs
      rw [List.drop_drop] at h3
      simpa using h3
    rw [scanSpaceBeforePunctF] at he
    split at he
    · rename_i hws
      split at he
      · exact absurd he (by simp)
      · rename_i p rs hrest
        have happ : (c :: cs).takeWhile isWS ++ p :: rs = c :: cs := by
          have h := List.takeWhile_append_dropWhile (p := isWS) (l := c :: cs)
          rw [hrest] at h
          exact h
        have hrunpos : 1 ≤ ((c :: cs).takeWhile isWS).length := by
          rw [List.takeWhile_cons, if_pos hws]
          simp
        have hlenapp : ((c :: cs).takeWhile isWS).length + (p :: rs).length
            = cs.length + 1 := by
          have := congrArg List.length happ
          simpa using this
        split at he
        · rename_i hp
          rcases List.mem_cons.mp he with rfl | he2
          · refine ⟨Nat.le_refl _, by dsimp only; omega,
              by dsimp only; simp at hlenapp; omega,
              ?_, ⟨c, cs.takeWhile isWS ++ [p], ?_, by unfold isSepChar; rw [hws]; simp⟩⟩
            · dsimp only
              unfold substrOf
              rw [← hs]
              have h1 : pos + ((c :: cs).takeWhile isWS).length + 1 - pos =
                  ((c :: cs).takeWhile isWS).length + 1 := by omega
              rw [h1]
              have hassoc : ((c :: cs).takeWhile isWS ++ [p]) ++ rs = c :: cs := by
                rw [List.append_assoc, List.singleton_append, happ]
              nth_rewrite 3 [← hassoc]
              exact (List.take_left' (by simp)).symm
            · dsimp only
              rw [List.takeWhile_cons, if_pos hws]
              simp
          · have hs2 : rs = text.drop (pos + ((c :: cs).takeWhile isWS).length + 1) := by
              have hassoc : ((c :: cs).takeWhile isWS ++ [p]) ++ rs = c :: cs := by
                rw [List.append_assoc, List.singleton_append, happ]
              have h4 : rs = (c :: cs).drop (((c :: cs).takeWhile isWS).length + 1) := by
                nth_rewrite 2 [← hassoc]
                exact (List.drop_left' (by simp)).symm
              rw [h4, hs, List.drop_drop, Nat.add_assoc]
            obtain ⟨ha, hb, hc2, hd, he3⟩ :=
              shape_scanSpaceBeforePunctF text fuel _ _ hs2
                (by simp at hlenapp; omega) e he2
            exact ⟨by omega, hb, hc2, hd, he3⟩
        · have hs2 : p :: rs = text.drop (pos + ((c :: cs).takeWhile isWS).length) := by
            have h4 : p :: rs = (c :: cs).drop (((c :: cs).takeWhile isWS).length) := by
              nth_rewrite 2 [← happ]
              exact (List.drop_left _ _).symm
            rw [h4, hs, List.drop_drop]
          obtain ⟨ha, hb, hc2, hd, he3⟩ :=
            shape_scanSpaceBeforePunctF text fuel _ _ hs2
              (by simp at hlenapp; omega) e he
          exact ⟨by omega, hb, hc2, hd, he3⟩
    · obtain ⟨ha, hb, hc2, hd, he3⟩ :=
        shape_scanSpaceBeforePunctF text fuel _ _ h2 (by omega) e he
      exact ⟨by omega, hb, hc2, hd, he3⟩

theorem shape_checkPunctuation (text : Str) :
    ∀ e ∈ checkPunctuation text,
      e.start < e.«end» ∧ e.«end» ≤ text.length ∧
      e.text = substrOf text e.start e.«end» ∧
      ∃ c rest2, e.text = c :: rest2 ∧ isSepChar c = true := by
  intro e he
  unfold checkPunctuation at he
  rcases List.mem_append.mp he with h | h
  · rcases List.mem_append.mp h with h | h
    · have h2 := shape_scanDoublePunctF text (text.length + 1) 0 text rfl (Nat.zero_le _) e h
      exact ⟨h2.2.1, h2.2.2.1, h2.2.2.2.1, h2.2.2.2.2⟩
    · have h2 := shape_scanMultipleSpacesF text (text.length + 1) 0 text rfl (Nat.zero_le _) e h
      exact ⟨h2.2.1, h2.2.2.1, h2.2.2.2.1, h2.2.2.2.2⟩
  · have h2 := shape_scanSpaceBeforePunctF text (text.length + 1) 0 text rfl (Nat.zero_le _) e h
    exact ⟨h2.2.1, h2.2.2.1, h2.2.2.2.1, h2.2.2.2.2⟩

/-! ### Inversion of the per-token pass -/

theorem mistake_keys_lower :
    (commonMistakes.all (fun mc => decide (toLowerStr mc.1 = mc.1))) = true := by decide

theorem phraseErrors_facts (text : Str) (position wordLen : Nat) (e : GrammarError)
    (he : e ∈ phraseErrors (toLowerStr text) position wordLen) :
    e.type = ErrorType.misspelling ∧ position ≤ e.start ∧ e.start ≤ e.«end» ∧
      e.«end» ≤ text.length ∧
      e.text = toLowerStr (substrOf text e.start e.«end») ∧
      ∃ mc ∈ commonMistakes, e.text = mc.1 := by
  rcases mem_phraseErrors_inv _ _ _ e he with ⟨mc, hmc, heq, hidx, hlt⟩
  have hilow : toLowerStr mc.1 = mc.1 := by
    have hall := mistake_keys_lower
    rw [List.all_eq_true] at hall
    exact of_decide_eq_true (hall mc hmc)
  obtain ⟨hge, htake, hbound⟩ := idxOfFrom_some _ _ _ _ hidx
  have hlentext : (toLowerStr text).length = text.length := List.length_map _ _
  have hlenmc : (toLowerStr mc.1).length = mc.1.length := List.length_map _ _
  have hstart : e.start + mc.1.length ≤ text.length := by omega
  have hsub : toLowerStr (substrOf text e.start (e.start + mc.1.length)) = mc.1 := by
    unfold substrOf
    have h1 : e.start + mc.1.length - e.start = mc.1.length := by omega
    rw [h1]
    unfold toLowerStr
    rw [List.map_take, List.map_drop]
    rw [hilow] at htake
    exact htake
  rw [heq]
  refine ⟨rfl, hge, by dsimp only; omega, by dsimp only; omega, ?_, ⟨mc, hmc, rfl⟩⟩
  dsimp only
  rw [hsub]

theorem token_chunk_facts (text w : Str) (p : Nat)
    (hmem : (w, p) ∈ tokensWithPos text)
    (hskip : ((toLowerStr (trimStr w)).isEmpty || isAllSepToken w) = false) :
    (∀ c ∈ w, isSepChar c = false) ∧ 1 ≤ w.length ∧ trimStr w = w ∧
      p + w.length ≤ text.length ∧ substrOf text p (p + w.length) = w := by
  rw [Bool.or_eq_false_iff] at hskip
  have hw : w ∈ jsSplit text := fst_mem_withPositions 0 _ _ hmem
  have hshape := jsSplit_shape text w hw
  have hchunk : ∀ c ∈ w, isSepChar c = false := by
    rcases hshape with h | h | h
    · exact h
    · exfalso
      have htrim : trimStr w = [] := trimStr_eq_nil w h.2
      rw [htrim] at hskip
      simp [toLowerStr] at hskip
    · exfalso
      rcases h with ⟨c, hc, rfl⟩
      have hall : isAllSepToken [c] = true := by
        unfold isAllSepToken isSepChar
        simp [hc]
      rw [hall] at hskip
      simp at hskip
  have hwne : 1 ≤ w.length := by
    cases w with
    | nil =>
      exfalso
      simp [trimStr, toLowerStr] at hskip
    | cons a l => simp
  have htrimid : trimStr w = w := trimStr_eq_self w (fun c hc => by
    have h1 := hchunk c hc
    unfold isSepChar at h1
    rw [Bool.or_eq_false_iff] at h1
    exact h1.1)
  have hspec := withPositions_spec text 0 (jsSplit text) (Nat.zero_le _)
    (by simp [jsSplit_flatten]) (w, p) hmem
  refine ⟨hchunk, hwne, htrimid, hspec.2, ?_⟩
  unfold substrOf
  have h1 : p + w.length - p = w.length := by omega
  rw [h1]
  exact hspec.1

theorem mem_processWord_inv (kbbiWords : List Str) (lowerText word : Str)
    (position : Nat) (e : GrammarError)
    (he : e ∈ processWord kbbiWords lowerText word position) :
    ((toLowerStr (trimStr word)).isEmpty || isAllSepToken word) = false ∧
      (e ∈ phraseErrors lowerText position word.length ∨
        (e.start = position ∧ e.«end» = position + word.length ∧
          e.text = trimStr word)) := by
  unfold processWord at he
  split at he
  · simp at he
  · rename_i hcond
    refine ⟨Bool.not_eq_true _ |>.mp hcond, ?_⟩
    rcases List.mem_append.mp he with h | h
    · rcases List.mem_append.mp h with h | h
      · split at h
        · split at h
          · simp at h
            subst h
            exact Or.inr ⟨rfl, rfl, rfl⟩
          · have h2 := mem_dictionaryErrors_inv _ _ _ _ _ e h
            exact Or.inr ⟨h2.2.1, h2.2.2, h2.1⟩
        · simp at h
      · exact Or.inl h
    · split at h
      · simp at h
        subst h
        exact Or.inr ⟨rfl, rfl, rfl⟩
      · simp at h

theorem mem_rawErrors_inv (kbbiWords : List Str) (text : Str) (e : GrammarError)
    (he : e ∈ rawErrors kbbiWords text) :
    (∃ w p, (w, p) ∈ tokensWithPos text ∧ (∀ c ∈ w, isSepChar c = false) ∧
        1 ≤ w.length ∧ trimStr w = w ∧ p + w.length ≤ text.length ∧
        substrOf text p (p + w.length) = w ∧
        e ∈ processWord kbbiWords (toLowerStr text) w p ∧
        (e ∈ phraseErrors (toLowerStr text) p w.length ∨
          (e.start = p ∧ e.«end» = p + w.length ∧ e.text = w))) ∨
      e ∈ checkPunctuation text ∨ e ∈ checkSentenceCapitalization text := by
  unfold rawErrors at he
  rcases List.mem_append.mp he with h | h
  · rcases List.mem_append.mp h with h | h
    · rcases List.mem_flatten.mp h with ⟨l, hl, hel⟩
      rcases List.mem_map.mp hl with ⟨wp, hwp, rfl⟩
      obtain ⟨hskip, hcase⟩ := mem_processWord_inv _ _ _ _ e hel
      obtain ⟨hchunk, hlen1, htrim, hbound, hsub⟩ :=
        token_chunk_facts text wp.1 wp.2 hwp hskip
      refine Or.inl ⟨wp.1, wp.2, hwp, hchunk, hlen1, htrim, hbound, hsub, hel, ?_⟩
      rcases hcase with hph | ⟨hst, hen, ht⟩
      · exact Or.inl hph
      · exact Or.inr ⟨hst, hen, by rw [ht, htrim]⟩
    · exact Or.inr (Or.inl h)
  · exact Or.inr (Or.inr h)

/-! ### Claims C3 and C6: spans and matched text -/

theorem shape_checkSentenceCapitalization (text : Str) :
    ∀ e ∈ checkSentenceCapitalization text,
      e.type = ErrorType.capitalization ∧ e.«end» = e.start + 1 ∧
      e.«end» ≤ text.length ∧ e.text = substrOf text e.start e.«end» := by
  intro e he
  unfold checkSentenceCapitalization at he
  rcases mem_sentenceCapFold text _ _ e he with h | h
  · simp at h
  · obtain ⟨hty, hen, trimmed, p2, hne, hidx, htext⟩ := h
    obtain ⟨_, htake, hbound⟩ := idxOfFrom_some _ _ _ _ hidx
    have hlen1 : 1 ≤ trimmed.length := by
      cases trimmed with
      | nil => simp at hne
      | cons a l => simp
    refine ⟨hty, hen, by omega, ?_⟩
    unfold substrOf
    rw [hen]
    have h1 : e.start + 1 - e.start = 1 := by omega
    rw [h1, htext, ← htake, List.take_take]
    congr 1
    omega

/-- C3: every returned error that is not a `format` error has
`start ≤ end ≤ length text`, and every `format` error has `start = end = 0`. -/
theorem C3_thm (kbbiWords : List Str) (text : Str) (margins : Option DocumentMargins) :
    ∀ e ∈ checkGrammar kbbiWords text margins,
      (e.type = ErrorType.format → e.start = 0 ∧ e.«end» = 0) ∧
      (e.type ≠ ErrorType.format → e.start ≤ e.«end» ∧ e.«end» ≤ text.length) := by
  intro e he
  unfold checkGrammar at he
  rcases List.mem_append.mp he with h | h
  · have hnf := type_of_mem_checkText kbbiWords text e h
    refine ⟨fun hc => absurd hc hnf, fun _ => ?_⟩
    have hraw := mem_rawErrors_of_mem_checkText kbbiWords text e h
    rcases mem_rawErrors_inv kbbiWords text e hraw with
      ⟨w, p, hwp, hchunk, hlen1, htrim, hbound, hsub, hpw, hcase⟩ | h2 | h2
    · rcases hcase with hph | ⟨hst, hen, ht⟩
      · have hf := phraseErrors_facts text p w.length e hph
        exact ⟨hf.2.2.1, hf.2.2.2.1⟩
      · rw [hst, hen]
        omega
    · have hf := shape_checkPunctuation text e h2
      exact ⟨Nat.le_of_lt hf.1, hf.2.1⟩
    · obtain ⟨hty, hen, hbound, htext⟩ := shape_checkSentenceCapitalization text e h2
      omega
  · have hm := mem_checkMargins margins e h
    exact ⟨fun _ => ⟨hm.2.1, hm.2.2.1⟩, fun hne => absurd hm.1 hne⟩

/-- Witness for C3 at the input `"ini"` and its sentence-capitalization error. -/
theorem C3_witness :
    ((⟨ErrorType.capitalization, [('i' : Char)], sentenceCapSuggestion 'i', 0, 1⟩ :
        GrammarError) ∈ checkGrammar [] (("ini").data) none) ∧
      (((⟨ErrorType.capitalization, [('i' : Char)], sentenceCapSuggestion 'i', 0, 1⟩ :
          GrammarError).type = ErrorType.format →
        (⟨ErrorType.capitalization, [('i' : Char)], sentenceCapSuggestion 'i', 0, 1⟩ :
          GrammarError).start = 0 ∧
        (⟨ErrorType.capitalization, [('i' : Char)], sentenceCapSuggestion 'i', 0, 1⟩ :
          GrammarError).«end» = 0) ∧
       ((⟨ErrorType.capitalization, [('i' : Char)], sentenceCapSuggestion 'i', 0, 1⟩ :
          GrammarError).type ≠ ErrorType.format →
        (⟨ErrorType.capitalization, [('i' : Char)], sentenceCapSuggestion 'i', 0, 1⟩ :
          GrammarError).start ≤
        (⟨ErrorType.capitalization, [('i' : Char)], sentenceCapSuggestion 'i', 0, 1⟩ :
          GrammarError).«end» ∧
        (⟨ErrorType.capitalization, [('i' : Char)], sentenceCapSuggestion 'i', 0, 1⟩ :
          GrammarError).«end» ≤ (("ini").data).length)) :=
  ⟨by decide, C3_thm [] (("ini").data) none _ (by decide)⟩

/-- C6: every non-format error's matched text is the exact substring of the
input at its span, except phrase-mistake `misspelling` errors, whose matched
text is the lowercased table key and equals the LOWERCASED substring. -/
theorem C6_amended_thm (kbbiWords : List Str) (text : Str)
    (margins : Option DocumentMargins) :
    ∀ e ∈ checkGrammar kbbiWords text margins, e.type ≠ ErrorType.format →
      (e.text = substrOf text e.start e.«end» ∨
        (e.type = ErrorType.misspelling ∧
          e.text = toLowerStr (substrOf text e.start e.«end»))) := by
  intro e he hnf
  unfold checkGrammar at he
  rcases List.mem_append.mp he with h | h
  · have hraw := mem_rawErrors_of_mem_checkText kbbiWords text e h
    rcases mem_rawErrors_inv kbbiWords text e hraw with
      ⟨w, p, hwp, hchunk, hlen1, htrim, hbound, hsub, hpw, hcase⟩ | h2 | h2
    · rcases hcase with hph | ⟨hst, hen, ht⟩
      · have hf := phraseErrors_facts text p w.length e hph
        exact Or.inr ⟨hf.1, hf.2.2.2.2.1⟩
      · refine Or.inl ?_
        rw [hst, hen, ht]
        exact hsub.symm
    · exact Or.inl (shape_checkPunctuation text e h2).2.2.1
    · exact Or.inl (shape_checkSentenceCapitalization text e h2).2.2.2
  · exact absurd (mem_checkMargins margins e h).1 hnf

/-- C6 counterexample: on `"Di makan"` the phrase-mistake error stores the
lowercased key `di makan`, but the exact substring at its span is `Di makan`. -/
theorem C6_counterexample :
    ((checkGrammar [] (("Di makan").data) none).any
      (fun e => !isFormat e.type &&
        !(decide (e.text = substrOf (("Di makan").data) e.start e.«end»)))) = true := by
  decide

/-- Witness for the amended C6 at `"Di makan"` and its phrase-mistake error. -/
theorem C6_amended_witness :
    ((⟨ErrorType.misspelling, ("di makan").data, phraseSuggestion (("dimakan").data),
        0, 8⟩ : GrammarError) ∈ checkGrammar [] (("Di makan").data) none) ∧
      ((⟨ErrorType.misspelling, ("di makan").data, phraseSuggestion (("dimakan").data),
          0, 8⟩ : GrammarError).type ≠ ErrorType.format) ∧
      ((⟨ErrorType.misspelling, ("di makan").data, phraseSuggestion (("dimakan").data),
          0, 8⟩ : GrammarError).text =
            substrOf (("Di makan").data) 0 8 ∨
        ((⟨ErrorType.misspelling, ("di makan").data, phraseSuggestion (("dimakan").data),
            0, 8⟩ : GrammarError).type = ErrorType.misspelling ∧
         (⟨ErrorType.misspelling, ("di makan").data, phraseSuggestion (("dimakan").data),
            0, 8⟩ : GrammarError).text =
              toLowerStr (substrOf (("Di makan").data) 0 8))) :=
  ⟨by decide, by decide,
    C6_amended_thm [] (("Di makan").data) none _ (by decide) (by decide)⟩

/-! ### Claim C8: empty lexicon disables exactly the dictionary lookups -/

theorem dictionaryErrors_nil (cleanWord originalWord : Str) (position wordLen : Nat) :
    dictionaryErrors [] cleanWord originalWord position wordLen = [] := rfl

theorem processWord_nil (lowerText word : Str) (position : Nat) :
    processWord [] lowerText word position = processWordNoDict lowerText word position := rfl

theorem rawErrors_nil (text : Str) : rawErrors [] text = rawErrorsNoDict text := by
  unfold rawErrors rawErrorsNoDict
  simp only [processWord_nil]

theorem type_of_mem_processWordNoDict (lowerText word : Str) (position : Nat) :
    ∀ e ∈ processWordNoDict lowerText word position,
      e.type = ErrorType.informal ∨ e.type = ErrorType.misspelling ∨
        e.type = ErrorType.capitalization := by
  intro e he
  unfold processWordNoDict at he
  split at he
  · simp at he
  · rcases List.mem_append.mp he with h | h
    · rcases List.mem_append.mp h with h | h
      · split at h
        · split at h
          · simp at h
            subst h
            exact Or.inl rfl
          · simp at h
        · simp at h
      · exact Or.inr (Or.inl (type_of_mem_phraseErrors _ _ _ e h))
    · split at h
      · simp at h
        subst h
        exact Or.inr (Or.inr rfl)
      · simp at h

theorem type_of_mem_rawErrorsNoDict (text : Str) :
    ∀ e ∈ rawErrorsNoDict text, e.type ≠ ErrorType.spelling := by
  intro e he
  unfold rawErrorsNoDict at he
  rcases List.mem_append.mp he with h | h
  · rcases List.mem_append.mp h with h | h
    · rcases List.mem_flatten.mp h with ⟨l, hl, hel⟩
      rcases List.mem_map.mp hl with ⟨wp, _, rfl⟩
      rcases type_of_mem_processWordNoDict _ _ _ e hel with h2 | h2 | h2 <;> simp [h2]
    · have := type_of_mem_checkPunctuation text e h
      simp [this]
  · have := (type_of_mem_checkSentenceCapitalization text e h).1
    simp [this]

/-- C8: with an empty lexicon `checkGrammar` coincides with the lexicon-free
pipeline `checkGrammarNoDict` in which the dictionary/fuzzy branch has been
deleted — so the informal-table, phrase-mistake, punctuation, capitalization
and margin detections are exactly what they are under any lexicon, and no
`spelling` (or fuzzy `misspelling`) error is produced; an empty lexicon is
never treated as "every word unknown". -/
theorem C8_thm (text : Str) (margins : Option DocumentMargins) :
    checkGrammar [] text margins = checkGrammarNoDict text margins ∧
    (checkGrammar [] text margins).all (fun e => !isSpelling e.type) = true := by
  have h1 : checkText [] text = checkTextNoDict text := by
    unfold checkText checkTextNoDict
    rw [rawErrors_nil]
  constructor
  · unfold checkGrammar checkGrammarNoDict
    rw [h1]
  · rw [List.all_eq_true]
    intro e he
    unfold checkGrammar at he
    rcases List.mem_append.mp he with h | h
    · have hraw := mem_rawErrors_of_mem_checkText [] text e h
      rw [rawErrors_nil] at hraw
      have := type_of_mem_rawErrorsNoDict text e hraw
      cases htype : e.type <;> simp_all [isSpelling]
    · have := (mem_checkMargins margins e h).1
      simp [this, isSpelling]

/-! ### Claim C7: the `saya sayah pergi kesana.` scenario -/

/-- C7 counterexample: on `"saya sayah pergi kesana."` with lexicon
`{saya, pergi}` there is NO `misspelling` error spanning `"sayah"` `(5, 10)` —
`sayah` sits in the informal table, so the error there has kind `informal`. -/
theorem C7_counterexample :
    ((checkGrammar [("saya").data, ("pergi").data]
        (("saya sayah pergi kesana.").data) none).any
      (fun e => decide (e.type = ErrorType.misspelling ∧ e.start = 5 ∧ e.«end» = 10)))
      = false := by
  decide

/-- C7 (amended): on `"saya sayah pergi kesana."` with lexicon `{saya, pergi}`
the output contains an error of kind `informal` (not `misspelling`) spanning
exactly the occurrence of `"sayah"` at offsets 5 to 10, and contains no error
whose span is the occurrence of `"saya"` (offsets 0 to 4). -/
theorem C7_amended_thm :
    ((checkGrammar [("saya").data, ("pergi").data]
        (("saya sayah pergi kesana.").data) none).any
      (fun e => decide (e.type = ErrorType.informal ∧ e.start = 5 ∧ e.«end» = 10)))
      = true ∧
    ((checkGrammar [("saya").data, ("pergi").data]
        (("saya sayah pergi kesana.").data) none).all
      (fun e => decide (¬(e.start = 0 ∧ e.«end» = 4)))) = true := by
  constructor <;> decide

/-! ### Claim C9: margin conformance -/

/-- C9: `checkMargins` emits exactly one `format` error (at span `(0,0)`) for
each dimension deviating from the standard `{top 3.0, bottom/left/right 2.5}`
by more than 0.1 cm, and nothing else; absent margins yield no errors; the
scenario `{top 2.0, rest 2.5}` yields exactly the single error `Margin Atas`
whose suggestion names 3.0 cm. -/
theorem C9_thm (m : DocumentMargins) :
    ((checkMargins (some m)).countP
        (fun e => decide (e.text = ("Margin Atas").data)) =
      if ratAbs (m.top - 3) > 1/10 then 1 else 0) ∧
    ((checkMargins (some m)).countP
        (fun e => decide (e.text = ("Margin Bawah").data)) =
      if ratAbs (m.bottom - 5/2) > 1/10 then 1 else 0) ∧
    ((checkMargins (some m)).countP
        (fun e => decide (e.text = ("Margin Kiri").data)) =
      if ratAbs (m.left - 5/2) > 1/10 then 1 else 0) ∧
    ((checkMargins (some m)).countP
        (fun e => decide (e.text = ("Margin Kanan").data)) =
      if ratAbs (m.right - 5/2) > 1/10 then 1 else 0) ∧
    (∀ e ∈ checkMargins (some m),
      e.type = ErrorType.format ∧ e.start = 0 ∧ e.«end» = 0 ∧
        (e.text = ("Margin Atas").data ∨ e.text = ("Margin Bawah").data ∨
          e.text = ("Margin Kiri").data ∨ e.text = ("Margin Kanan").data)) ∧
    checkMargins none = [] ∧
    (checkMargins (some ⟨2, 5/2, 5/2, 5/2⟩)).map (fun e => e.text)
      = [("Margin Atas").data] ∧
    ((checkMargins (some ⟨2, 5/2, 5/2, 5/2⟩)).all
      (fun e => hasSubstr e.suggestion (("3.0 cm").data))) = true := by
  have hscenario : checkMargins (some ⟨2, 5/2, 5/2, 5/2⟩) =
      [⟨ErrorType.format, ("Margin Atas").data,
        marginSuggestion ("Margin atas").data ("3.0").data 2 ("margin atas").data,
        0, 0⟩] := by
    simp only [checkMargins]
    norm_num [ratAbs]
  refine ⟨?_, ?_, ?_, ?_, mem_checkMargins (some m), rfl, ?_, ?_⟩
  · rw [checkMargins, List.countP_append, List.countP_append, List.countP_append]
    split_ifs <;> rfl
  · rw [checkMargins, List.countP_append, List.countP_append, List.countP_append]
    split_ifs <;> rfl
  · rw [checkMargins, List.countP_append, List.countP_append, List.countP_append]
    split_ifs <;> rfl
  · rw [checkMargins, List.countP_append, List.countP_append, List.countP_append]
    split_ifs <;> rfl
  · rw [hscenario]
    rfl
  · rw [hscenario]
    decide

/-- Witness for C9: the inner membership hypothesis discharged at the concrete
scenario margins and their single emitted error. -/
theorem C9_witness :
    ((⟨ErrorType.format, ("Margin Atas").data,
        marginSuggestion ("Margin atas").data ("3.0").data 2 ("margin atas").data,
        0, 0⟩ : GrammarError) ∈ checkMargins (some ⟨2, 5/2, 5/2, 5/2⟩)) ∧
    ((⟨ErrorType.format, ("Margin Atas").data,
        marginSuggestion ("Margin atas").data ("3.0").data 2 ("margin atas").data,
        0, 0⟩ : GrammarError).type = ErrorType.format) := by
  have hscenario : checkMargins (some ⟨2, 5/2, 5/2, 5/2⟩) =
      [⟨ErrorType.format, ("Margin Atas").data,
        marginSuggestion ("Margin atas").data ("3.0").data 2 ("margin atas").data,
        0, 0⟩] := by
    simp only [checkMargins]
    norm_num [ratAbs]
  have hmem : (⟨ErrorType.format, ("Margin Atas").data,
      marginSuggestion ("Margin atas").data ("3.0").data 2 ("margin atas").data,
      0, 0⟩ : GrammarError) ∈ checkMargins (some ⟨2, 5/2, 5/2, 5/2⟩) := by
    rw [hscenario]
    exact List.mem_singleton.mpr rfl
  exact ⟨hmem, ((C9_thm ⟨2, 5/2, 5/2, 5/2⟩).2.2.2.2.1 _ hmem).1⟩

end ResikBahasa
namespace ResikBahasa
theorem lookupStr_some_mem :
    ∀ (t : List (Str × Str)) (w f : Str), lookupStr t w = some f → (w, f) ∈ t
  | [], w, f, h => by simp [lookupStr] at h
  | (k, v) :: rest, w, f, h => by
    rw [lookupStr] at h
    split at h
    · rename_i hw
      rcases Option.some.injEq _ _ |>.mp h with rfl
      rw [hw]
      exact List.mem_cons_self _ _
    · exact List.mem_cons_of_mem _ (lookupStr_some_mem rest w f h)

theorem informal_keys_have_nonsep :
    (informalToFormal.all (fun kv => kv.1.any (fun c => !isSepChar c))) = true := by
  decide

theorem informal_keys_not_proper :
    (informalToFormal.all (fun kv => !(properNouns.contains kv.1))) = true := by
  decide

theorem informal_keys_not_mistakes :
    (informalToFormal.all (fun kv =>
      commonMistakes.all (fun mc => !(decide (mc.1 = kv.1))))) = true := by
  decide

/-- C10 (core): a token whose lowercased trimmed form is an informal-table key
(and which passes the digit/punctuation and length guards) produces exactly one
`informal` error spanning the token followed by the phrase-mistake scan — in
particular the dictionary branch emits nothing for it, whatever the lexicon —
and that informal error survives deduplication into the final output. -/
theorem C10_thm (kbbiWords : List Str) (text : Str) (margins : Option DocumentMargins)
    (w : Str) (p : Nat) (f : Str)
    (hmem : (w, p) ∈ tokensWithPos text)
    (hkey : lookupStr informalToFormal (toLowerStr (trimStr w)) = some f)
    (hdp : isDigitPunctOnly (trimStr w) = false)
    (hlen : 1 < (toLowerStr (trimStr w)).length) :
    processWord kbbiWords (toLowerStr text) w p =
      ⟨ErrorType.informal, trimStr w, informalSuggestion f, p, p + w.length⟩ ::
        phraseErrors (toLowerStr text) p w.length ∧
    (⟨ErrorType.informal, trimStr w, informalSuggestion f, p, p + w.length⟩ :
        GrammarError) ∈ checkGrammar kbbiWords text margins := by
  have hkmem : (toLowerStr (trimStr w), f) ∈ informalToFormal :=
    lookupStr_some_mem _ _ _ hkey
  have hempty : (toLowerStr (trimStr w)).isEmpty = false := by
    rw [Bool.eq_false_iff]
    intro hemp
    rw [List.isEmpty_iff.mp hemp] at hlen
    simp at hlen
  have hallsep : isAllSepToken w = false := by
    rw [Bool.eq_false_iff]
    intro hsep
    unfold isAllSepToken at hsep
    rw [Bool.and_eq_true] at hsep
    rw [List.all_eq_true] at hsep
    have hall := informal_keys_have_nonsep
    rw [List.all_eq_true] at hall
    have h3 := hall _ hkmem
    rw [List.any_eq_true] at h3
    rcases h3 with ⟨c, hc, hcsep⟩
    rcases List.mem_map.mp hc with ⟨c2, hc2, rfl⟩
    have hc2w : c2 ∈ w := mem_trimStr w c2 hc2
    have hc2sep : isSepChar c2 = true := hsep.2 c2 hc2w
    rw [toLowerChar_of_sep c2 hc2sep, hc2sep] at hcsep
    simp at hcsep
  have hskip : ((toLowerStr (trimStr w)).isEmpty || isAllSepToken w) = false := by
    rw [hempty, hallsep]
    rfl
  obtain ⟨hchunk, hlen1, htrim, hbound, hsub⟩ := token_chunk_facts text w p hmem hskip
  have hprop : properNouns.contains (toLowerStr (trimStr w)) = false := by
    have hall := informal_keys_not_proper
    rw [List.all_eq_true] at hall
    have h3 := hall _ hkmem
    rwa [Bool.not_eq_true'] at h3
  have heq : processWord kbbiWords (toLowerStr text) w p =
      ⟨ErrorType.informal, trimStr w, informalSuggestion f, p, p + w.length⟩ ::
        phraseErrors (toLowerStr text) p w.length := by
    unfold processWord
    rw [hskip]
    simp only [Bool.false_eq_true, if_false]
    rw [hdp, hkey, hprop]
    simp [hlen]
  have hwlen : (toLowerStr (trimStr w)).length = w.length := by
    rw [htrim]
    exact List.length_map _ _
  have hinfraw : (⟨ErrorType.informal, trimStr w, informalSuggestion f, p,
      p + w.length⟩ : GrammarError) ∈ rawErrors kbbiWords text := by
    unfold rawErrors
    apply List.mem_append_left
    apply List.mem_append_left
    rw [List.mem_flatten]
    refine ⟨processWord kbbiWords (toLowerStr text) w p, ?_, ?_⟩
    · rw [List.mem_map]
      exact ⟨(w, p), hmem, rfl⟩
    · rw [heq]
      exact List.mem_cons_self _ _
  have hsubour : substrOf text p (p + w.length) = w := hsub
  have hnophrase : ∀ (x : GrammarError) (pp ll : Nat),
      x ∈ phraseErrors (toLowerStr text) pp ll → x.start = p →
        x.«end» = p + w.length → False := by
    intro x pp ll hph hxs hxe
    have hf := phraseErrors_facts text pp ll x hph
    rcases hf.2.2.2.2.2 with ⟨mc, hmc, htext⟩
    have hsubx : substrOf text x.start x.«end» = w := by
      rw [hxs, hxe]
      exact hsubour
    have hmcw : mc.1 = toLowerStr w := by
      rw [← htext, hf.2.2.2.2.1, hsubx]
    have hall := informal_keys_not_mistakes
    rw [List.all_eq_true] at hall
    have h3 := hall _ hkmem
    rw [List.all_eq_true] at h3
    have h4 := h3 mc hmc
    rw [Bool.not_eq_true', decide_eq_false_iff_not] at h4
    apply h4
    rw [hmcw, htrim]
  have huniq : ∀ x ∈ rawErrors kbbiWords text,
      spanPair x = spanPair (⟨ErrorType.informal, trimStr w, informalSuggestion f, p,
        p + w.length⟩ : GrammarError) →
      x = ⟨ErrorType.informal, trimStr w, informalSuggestion f, p, p + w.length⟩ := by
    intro x hx hsp
    unfold spanPair at hsp
    have hxs : x.start = p := congrArg Prod.fst hsp
    have hxe : x.«end» = p + w.length := congrArg Prod.snd hsp
    rcases mem_rawErrors_inv kbbiWords text x hx with
      ⟨w2, p2, hwp2, hchunk2, hlen2, htrim2, hbound2, hsub2, hpw2, hcase2⟩ | h2 | h2
    · rcases hcase2 with hph2 | ⟨hst2, hen2, ht2⟩
      · exact absurd (hnophrase x p2 w2.length hph2 hxs hxe) (by simp)
      · have hpp : p2 = p := by
          rw [← hst2]
          exact hxs
        rw [hpp] at hwp2 hpw2
        have hww : w2 = w :=
          withPositions_unique 0 (jsSplit text) w2 w p hwp2 hmem hlen2 hlen1
        rw [hww] at hpw2
        rw [heq] at hpw2
        rcases List.mem_cons.mp hpw2 with h3 | h3
        · exact h3
        · exact absurd (hnophrase x p w.length h3 hxs hxe) (by simp)
    · exfalso
      have hf := shape_checkPunctuation text x h2
      rcases hf.2.2.2 with ⟨c, rest2, htext, hcsep⟩
      have hsubx : substrOf text x.start x.«end» = w := by
        rw [hxs, hxe]
        exact hsubour
      have hw2 : w = c :: rest2 := by
        rw [← hsubx, ← hf.2.2.1]
        exact htext
      have := hchunk c (by rw [hw2]; exact List.mem_cons_self _ _)
      rw [this] at hcsep
      simp at hcsep
    · exfalso
      have hf := shape_checkSentenceCapitalization text x h2
      have h3 := hf.2.1
      rw [hxs, hxe] at h3
      omega
  have hdedup : (⟨ErrorType.informal, trimStr w, informalSuggestion f, p,
      p + w.length⟩ : GrammarError) ∈ dedupBySpan (rawErrors kbbiWords text) :=
    mem_dedupAux_of_unique [] _ _ hinfraw huniq (by simp)
  refine ⟨heq, ?_⟩
  unfold checkGrammar
  apply List.mem_append_left
  exact (mem_checkText_iff kbbiWords text _).mpr hdedup

/-- Witness for C10: the token `gak` at offset 3 of `"ya gak"`. -/
theorem C10_witness :
    ((("gak").data, 3) ∈ tokensWithPos (("ya gak").data)) ∧
    (processWord [] (toLowerStr (("ya gak").data)) (("gak").data) 3 =
      ⟨ErrorType.informal, trimStr (("gak").data), informalSuggestion (("tidak").data),
        3, 3 + (("gak").data).length⟩ ::
        phraseErrors (toLowerStr (("ya gak").data)) 3 (("gak").data).length ∧
     (⟨ErrorType.informal, trimStr (("gak").data), informalSuggestion (("tidak").data),
        3, 3 + (("gak").data).length⟩ : GrammarError) ∈
          checkGrammar [] (("ya gak").data) none) :=
  ⟨by decide,
    C10_thm [] (("ya gak").data) none (("gak").data) 3 (("tidak").data)
      (by decide) (by decide) (by decide) (by decide)⟩
end ResikBahasa
